import Mathlib

/-!
Shallow embedding of the `PerformanceCache` class from
`src/seeking-extension-advanced/src/content/main.js` (the bounded key-value
store with per-entry TTL, approximate memory accounting, priority-weighted
LRU eviction, tag-based bulk invalidation, and export/import), together with
proofs about its operations.

Modelling conventions:
- JavaScript `Map`s are insertion-ordered association lists; `Map.get`
  returns the (unique) entry with the given key, `Map.set` updates in place
  or appends, `Map.delete` removes that entry.
- `Date.now()` is passed in explicitly as the `now : Int` argument of each
  operation; all reads of the clock inside one synchronous call see the
  same value.
- JavaScript numbers that the code uses as integers are `Int` (or `Nat`
  where they are manifestly non-negative); eviction scores, which the code
  computes with floating-point division, are `Rat`.
- `null` is `JSValue.vNull`; `get` returns the stored value or `null`, as
  the source does.
- `Array.prototype.sort` with comparator `a.score - b.score` is a stable
  ascending sort by score; it is modelled by a stable insertion sort.
-/

set_option linter.unusedVariables false

namespace SaveGrandma

/-- JavaScript values as far as the cache observes them: `getObjectSize`
dispatches on `typeof` plus the `ArrayBuffer` / `Array` checks. -/
inductive JSValue where
  | vNull
  | vBool (b : Bool)
  | vNum (n : Int)
  | vStr (s : String)
  | vBuf (byteLength : Nat)
  | vArr (items : List JSValue)
  | vObj (fields : List (String × JSValue))

/-- The `value !== null` test used by `getByTag`, as a Boolean on the value
`get` returned (`true` exactly when that value is `null`). -/
def JSValue.isNull : JSValue → Bool
  | .vNull => true
  | _ => false

mutual

/-- `PerformanceCache.getObjectSize`: null/undefined are 4 bytes, booleans 4,
numbers 8, strings 2 per character, `ArrayBuffer`s their byte length, arrays
the sum of their items, plain objects the sum over own keys of twice the key
length plus the value's size. -/
def getObjectSize : JSValue → Nat
  | .vNull => 4
  | .vBool _ => 4
  | .vNum _ => 8
  | .vStr s => 2 * s.length
  | .vBuf n => n
  | .vArr items => getObjectSizeList items
  | .vObj fields => getObjectSizeFields fields

/-- Size of an array's items (the `for (let item of obj)` loop). -/
def getObjectSizeList : List JSValue → Nat
  | [] => 0
  | x :: xs => getObjectSize x + getObjectSizeList xs

/-- Size of an object's own properties (the `for (let key in obj)` loop). -/
def getObjectSizeFields : List (String × JSValue) → Nat
  | [] => 0
  | (k, v) :: rest => 2 * k.length + getObjectSize v + getObjectSizeFields rest

end

/-- Insertion-ordered association list standing for a JavaScript `Map`. -/
abbrev AList (α : Type) := List (String × α)

/-- `Map.get`: the value of the (first, hence unique) entry with this key. -/
def mget {α : Type} : AList α → String → Option α
  | [], _ => none
  | p :: m, k => if p.1 = k then some p.2 else mget m k

/-- `Map.has`. -/
def mhas {α : Type} (m : AList α) (k : String) : Bool :=
  (mget m k).isSome

/-- `Map.set`: update the entry with this key in place, else append. -/
def mset {α : Type} : AList α → String → α → AList α
  | [], k, v => [(k, v)]
  | p :: m, k, v => if p.1 = k then (k, v) :: m else p :: mset m k v

/-- `Map.delete`: remove the entry with this key (the first occurrence). -/
def mdel {α : Type} : AList α → String → AList α
  | [], _ => []
  | p :: m, k => if p.1 = k then m else p :: mdel m k

/-- Per-entry metadata object stored in `this.metadata`. -/
structure Meta where
  size : Nat
  timestamp : Int
  expiry : Int
  hits : Nat
  priority : Int
  tags : List String
  lastAccess : Int
  deriving DecidableEq, Inhabited

/-- `this.stats`. -/
structure Stats where
  hits : Nat
  misses : Nat
  evictions : Nat
  sets : Nat
  deletes : Nat
  memoryPeak : Int
  deriving DecidableEq

/-- Constructor configuration, set once in the constructor and never
mutated afterwards. -/
structure CacheConfig where
  maxSize : Nat
  maxMemory : Nat
  defaultTTL : Int
  deriving DecidableEq

/-- The mutable state of a `PerformanceCache` instance. -/
structure Cache where
  config : CacheConfig
  cache : AList JSValue
  metadata : AList Meta
  accessOrder : List String
  memoryUsage : Int
  stats : Stats

/-- `options` argument of `set`; `none` models an absent property. -/
structure SetOptions where
  ttl : Option Int := none
  priority : Option Int := none
  tags : Option (List String) := none

/-- Constructor options. -/
structure CacheOptions where
  maxSize : Option Nat := none
  maxMemory : Option Nat := none
  defaultTTL : Option Int := none

/-- JavaScript `x || d` for an optionally-present integer: an absent value
and the (falsy) value `0` both fall back to the default. -/
def orDefaultInt (x : Option Int) (d : Int) : Int :=
  match x with
  | none => d
  | some v => if v = 0 then d else v

/-- JavaScript `x || d` for an optionally-present natural number. -/
def orDefaultNat (x : Option Nat) (d : Nat) : Nat :=
  match x with
  | none => d
  | some v => if v = 0 then d else v

/-- The `PerformanceCache` constructor. -/
def mkCache (options : CacheOptions) : Cache :=
  { config :=
      { maxSize := orDefaultNat options.maxSize 1000
        maxMemory := orDefaultNat options.maxMemory (50 * 1024 * 1024)
        defaultTTL := orDefaultInt options.defaultTTL 3600000 }
    cache := []
    metadata := []
    accessOrder := []
    memoryUsage := 0
    stats := { hits := 0, misses := 0, evictions := 0, sets := 0, deletes := 0, memoryPeak := 0 } }

/-- `PerformanceCache.delete`: credit the memory back, drop the entry from
both maps and from the access order, count the delete. -/
def Cache.del (c : Cache) (k : String) : Cache × Bool :=
  if mhas c.cache k = false then (c, false)
  else
    let metadata := (mget c.metadata k).getD default
    ({ c with
        memoryUsage := c.memoryUsage - metadata.size
        cache := mdel c.cache k
        metadata := mdel c.metadata k
        accessOrder := c.accessOrder.erase k
        stats := { c.stats with deletes := c.stats.deletes + 1 } }, true)

/-- `PerformanceCache.updateAccessOrder`: move the key to the
most-recently-used (last) position. -/
def Cache.updateAccessOrder (c : Cache) (k : String) : Cache :=
  { c with accessOrder := c.accessOrder.erase k ++ [k] }

/-- Capacity-eviction score: `(hits * priority * 1000) / (age + 1)` with
`age = now - lastAccess`, as an exact rational (`Rat.divInt a b = a / b`). -/
def lruScore (m : Meta) (now : Int) : ℚ :=
  Rat.divInt ((m.hits : Int) * m.priority * 1000) ((now - m.lastAccess) + 1)

/-- The scan loop of `evictLRU`: walk the first `min(10, length)` keys of
the access order keeping the entry with the strictly lowest score (the
initial `lowestScore` of `Infinity` is modelled by the `none` accumulator,
which any finite score beats). -/
def lruScan (c : Cache) (now : Int) : List String → Option (String × ℚ) → Option (String × ℚ)
  | [], best => best
  | k :: ks, best =>
    let score := lruScore ((mget c.metadata k).getD default) now
    match best with
    | none => lruScan c now ks (some (k, score))
    | some b => if score < b.2 then lruScan c now ks (some (k, score)) else lruScan c now ks (some b)

/-- The `evictKey` selected by `evictLRU`'s scan. -/
def Cache.lruChoice (c : Cache) (now : Int) : Option String :=
  (lruScan c now (c.accessOrder.take 10) none).map Prod.fst

/-- `PerformanceCache.evictLRU`. The final `if (evictKey)` is JavaScript
truthiness: no eviction happens when the selected key is the empty string. -/
def Cache.evictLRU (c : Cache) (now : Int) : Cache :=
  if c.accessOrder.isEmpty then c
  else
    match c.lruChoice now with
    | none => c
    | some evictKey =>
      if evictKey = "" then c
      else
        let c' := (c.del evictKey).1
        { c' with stats := { c'.stats with evictions := c'.stats.evictions + 1 } }

/-- `PerformanceCache.calculateEvictionScore`:
`(hits * priority * timeToExpiry) / (age * recency * size + 1)`, as an
exact rational (`Rat.divInt a b = a / b`). -/
def calculateEvictionScore (m : Meta) (now : Int) : ℚ :=
  Rat.divInt ((m.hits : Int) * m.priority * (m.expiry - now))
    ((now - m.timestamp) * (now - m.lastAccess) * (m.size : Int) + 1)

/-- Stable insertion of one element into an already-processed list, keeping
existing ties to the left (stable). -/
def insertOrdered {α : Type} (le : α → α → Bool) (x : α) : List α → List α
  | [] => [x]
  | y :: ys => if le y x then y :: insertOrdered le x ys else x :: y :: ys

/-- Stable sort, modelling `Array.prototype.sort` (stable per the
ECMAScript specification) with an ascending comparator. -/
def stableSort {α : Type} (le : α → α → Bool) (xs : List α) : List α :=
  xs.foldl (fun acc x => insertOrdered le x acc) []

/-- The deletion loop of `evictByMemory`: stop as soon as enough bytes are
freed, otherwise delete the next candidate and credit its recorded size. -/
def evictByMemoryGo (requiredSize : Nat) : List (String × ℚ × Nat) → Nat → Cache → Cache
  | [], _, c => c
  | cand :: rest, freed, c =>
    if requiredSize ≤ freed then c
    else
      let c' := (c.del cand.1).1
      evictByMemoryGo requiredSize rest (freed + cand.2.2)
        { c' with stats := { c'.stats with evictions := c'.stats.evictions + 1 } }

/-- `PerformanceCache.evictByMemory`: score every entry, sort ascending by
score (lower = evict first), evict until `requiredSize` bytes are freed or
no candidates remain. -/
def Cache.evictByMemory (c : Cache) (now : Int) (requiredSize : Nat) : Cache :=
  let candidates := c.metadata.map (fun p => (p.1, calculateEvictionScore p.2 now, p.2.size))
  let sorted := stableSort (fun a b => decide (a.2.1 ≤ b.2.1)) candidates
  evictByMemoryGo requiredSize sorted 0 c

/-- `set`, step 1: `if (this.memoryUsage + size > this.maxMemory) this.evictByMemory(size)`. -/
def memPressure (c : Cache) (now : Int) (size : Nat) : Cache :=
  if c.memoryUsage + (size : Int) > (c.config.maxMemory : Int)
  then c.evictByMemory now size else c

/-- `set`, step 2: `if (this.cache.size >= this.maxSize) this.evictLRU()`. -/
def capPressure (c : Cache) (now : Int) : Cache :=
  if c.config.maxSize ≤ c.cache.length then c.evictLRU now else c

/-- `set`, step 3: `if (this.cache.has(key)) this.delete(key)`. -/
def replaceOld (c : Cache) (key : String) : Cache :=
  if mhas c.cache key then (c.del key).1 else c

/-- The three guarded clean-up steps at the start of `set`, in source
order: evict for memory pressure, evict for capacity, then remove the old
entry when the key already exists. -/
def setEvictions (c : Cache) (now : Int) (size : Nat) (key : String) : Cache :=
  replaceOld (capPressure (memPressure c now size) now) key

/-- The unconditional tail of `set`: store value and metadata, bump the
access order, account the memory, update the peak, count the set. -/
def Cache.insertEntry (c : Cache) (now : Int) (key : String) (value : JSValue)
    (ttl priority : Int) (tags : List String) : Cache :=
  let size := getObjectSize value
  let meta : Meta :=
    { size := size, timestamp := now, expiry := now + ttl, hits := 0
      priority := priority, tags := tags, lastAccess := now }
  let c4 := { c with cache := mset c.cache key value, metadata := mset c.metadata key meta }
  let c5 := c4.updateAccessOrder key
  let mu := c5.memoryUsage + (size : Int)
  let peak := if mu > c5.stats.memoryPeak then mu else c5.stats.memoryPeak
  { c5 with
      memoryUsage := mu
      stats := { c5.stats with memoryPeak := peak, sets := c5.stats.sets + 1 } }

/-- `PerformanceCache.set`: resolve the options with `||` defaults, run the
guarded clean-up steps, then insert the new entry. -/
def Cache.set (c : Cache) (now : Int) (key : String) (value : JSValue) (options : SetOptions) : Cache :=
  let ttl := orDefaultInt options.ttl c.config.defaultTTL
  let priority := orDefaultInt options.priority 0
  let tags := options.tags.getD []
  let size := getObjectSize value
  (setEvictions c now size key).insertEntry now key value ttl priority tags

/-- `PerformanceCache.get`: returns the stored value, or `null` when the key
is absent or the entry has expired (in which case it is deleted first). -/
def Cache.get (c : Cache) (now : Int) (key : String) : Cache × JSValue :=
  if mhas c.cache key = false then
    ({ c with stats := { c.stats with misses := c.stats.misses + 1 } }, JSValue.vNull)
  else
    let metadata := (mget c.metadata key).getD default
    if now > metadata.expiry then
      let c' := (c.del key).1
      ({ c' with stats := { c'.stats with misses := c'.stats.misses + 1 } }, JSValue.vNull)
    else
      let meta' := { metadata with hits := metadata.hits + 1, lastAccess := now }
      let c' := ({ c with metadata := mset c.metadata key meta' }).updateAccessOrder key
      ({ c' with stats := { c'.stats with hits := c'.stats.hits + 1 } },
        (mget c.cache key).getD JSValue.vNull)

/-- `PerformanceCache.clear`: drop everything, reset memory, keep the
cumulative stats counters. -/
def Cache.clear (c : Cache) : Cache :=
  { c with cache := [], metadata := [], accessOrder := [], memoryUsage := 0 }

/-- `PerformanceCache.cleanup`: sweep every entry whose expiry has passed. -/
def Cache.cleanup (c : Cache) (now : Int) : Cache :=
  let keysToDelete := (c.metadata.filter (fun p => decide (now > p.2.expiry))).map Prod.fst
  keysToDelete.foldl (fun acc k => (acc.del k).1) c

/-- The loop of `getByTag`: for each entry of the (pre-iteration) metadata
map whose tags include the tag, call `get` and keep the pair when the value
that comes back is not `null`. -/
def getByTagGo (now : Int) (tag : String) :
    List (String × Meta) → Cache × List (String × JSValue) → Cache × List (String × JSValue)
  | [], acc => acc
  | p :: ps, acc =>
    if p.2.tags.contains tag then
      let r := acc.1.get now p.1
      if r.2.isNull then getByTagGo now tag ps (r.1, acc.2)
      else getByTagGo now tag ps (r.1, acc.2 ++ [(p.1, r.2)])
    else getByTagGo now tag ps acc

/-- `PerformanceCache.getByTag`. -/
def Cache.getByTag (c : Cache) (now : Int) (tag : String) : Cache × List (String × JSValue) :=
  getByTagGo now tag c.metadata (c, [])

/-- `PerformanceCache.invalidateByTag`: collect the keys whose tags include
the tag, delete them all, return how many were collected. -/
def Cache.invalidateByTag (c : Cache) (tag : String) : Cache × Nat :=
  let keysToDelete := (c.metadata.filter (fun p => p.2.tags.contains tag)).map Prod.fst
  (keysToDelete.foldl (fun acc k => (acc.del k).1) c, keysToDelete.length)

/-- One entry of an exported snapshot. -/
structure ExportEntry where
  key : String
  value : JSValue
  metadata : Meta

/-- An exported snapshot: live entries, the stats object, and the wall
clock at export time. -/
structure ExportData where
  entries : List ExportEntry
  stats : Stats
  timestamp : Int

/-- `PerformanceCache.export`. -/
def Cache.export (c : Cache) (now : Int) : ExportData :=
  { entries := c.cache.map (fun p =>
      { key := p.1, value := p.2, metadata := (mget c.metadata p.1).getD default })
    stats := c.stats
    timestamp := now }

/-- One iteration of the `import` loop: compute the adjusted expiry, skip
the entry when it is not in the future, otherwise re-insert it with the
adjusted TTL and restore its original hit count. -/
def importStep (tstamp now : Int) (acc : Cache) (e : ExportEntry) : Cache :=
  let timePassed := now - tstamp
  let newExpiry := e.metadata.expiry - timePassed
  if newExpiry > now then
    let acc' := acc.set now e.key e.value
      { ttl := some (newExpiry - now), priority := some e.metadata.priority,
        tags := some e.metadata.tags }
    match mget acc'.metadata e.key with
    | some m => { acc' with metadata := mset acc'.metadata e.key { m with hits := e.metadata.hits } }
    | none => acc'
  else acc

/-- `PerformanceCache.import`: clear, re-insert the still-live entries with
expiry adjusted by the elapsed time, restore the stats object. -/
def Cache.importData (c : Cache) (now : Int) (data : ExportData) : Cache :=
  let c1 := data.entries.foldl (importStep data.timestamp now) c.clear
  { c1 with stats := data.stats }

/-- Keys currently stored in the cache, in insertion order. -/
def keys (c : Cache) : List String := c.cache.map Prod.fst

/-- Total of the recorded entry sizes. -/
def msum (m : AList Meta) : Int := (m.map (fun p => (p.2.size : Int))).sum

/-- Bookkeeping well-formedness: keys are unique, the value map and the
metadata map hold exactly the same keys in the same order, the access-order
sequence holds exactly the stored keys (each once), and `memoryUsage` is
the sum of the recorded sizes. -/
def Wf (c : Cache) : Prop :=
  (keys c).Nodup ∧
  c.metadata.map Prod.fst = keys c ∧
  c.accessOrder.Perm (keys c) ∧
  c.memoryUsage = msum c.metadata

instance (c : Cache) : Decidable (Wf c) := by
  unfold Wf; infer_instance

/-- A `set` call in a recorded history. -/
structure SetCall where
  now : Int
  key : String
  value : JSValue
  options : SetOptions

/-- Run a sequence of `set` calls. -/
def applySets (c : Cache) (calls : List SetCall) : Cache :=
  calls.foldl (fun acc a => acc.set a.now a.key a.value a.options) c

/-! ### Association-list lemmas -/

theorem mget_eq_none_iff {α : Type} (m : AList α) (k : String) :
    mget m k = none ↔ k ∉ m.map Prod.fst := by
  induction m with
  | nil => simp [mget]
  | cons p m ih =>
    by_cases h : p.1 = k
    · subst h; simp [mget]
    · have hne : ¬ k = p.1 := fun he => h he.symm
      simp only [mget, if_neg h, List.map_cons, List.mem_cons, ih]
      tauto

theorem mget_isSome_iff {α : Type} (m : AList α) (k : String) :
    (mget m k).isSome = true ↔ k ∈ m.map Prod.fst := by
  rw [Option.isSome_iff_ne_none, ne_eq, mget_eq_none_iff, not_not]

theorem mhas_eq_true_iff {α : Type} (m : AList α) (k : String) :
    mhas m k = true ↔ k ∈ m.map Prod.fst := by
  rw [mhas, mget_isSome_iff]

theorem mhas_eq_false_iff {α : Type} (m : AList α) (k : String) :
    mhas m k = false ↔ k ∉ m.map Prod.fst := by
  rw [← Bool.not_eq_true, mhas_eq_true_iff]

theorem mget_of_mem_nodup {α : Type} {m : AList α} {p : String × α}
    (h : (m.map Prod.fst).Nodup) (hp : p ∈ m) : mget m p.1 = some p.2 := by
  induction m with
  | nil => cases hp
  | cons q m ih =>
    simp only [List.map_cons, List.nodup_cons] at h
    rcases List.mem_cons.1 hp with rfl | hp'
    · simp [mget]
    · have hne : q.1 ≠ p.1 := fun he => h.1 (he ▸ List.mem_map_of_mem Prod.fst hp')
      simp [mget, hne, ih h.2 hp']

theorem mem_of_mget_eq_some {α : Type} {m : AList α} {k : String} {v : α}
    (h : mget m k = some v) : (k, v) ∈ m := by
  induction m with
  | nil => simp [mget] at h
  | cons p m ih =>
    by_cases hp : p.1 = k
    · simp only [mget, hp, if_pos] at h
      cases h
      exact hp ▸ List.mem_cons_self _ _
    · simp only [mget, hp, if_neg, not_false_iff] at h
      exact List.mem_cons_of_mem _ (ih h)

theorem map_fst_mdel {α : Type} (m : AList α) (k : String) :
    (mdel m k).map Prod.fst = (m.map Prod.fst).erase k := by
  induction m with
  | nil => simp [mdel]
  | cons p m ih =>
    by_cases h : p.1 = k
    · simp [mdel, h, List.erase_cons_head]
    · simp [mdel, h, List.erase_cons_tail, ih, beq_iff_eq]

theorem mdel_of_none {α : Type} {m : AList α} {k : String}
    (h : mget m k = none) : mdel m k = m := by
  induction m with
  | nil => rfl
  | cons p m ih =>
    by_cases hp : p.1 = k
    · simp [mget, hp] at h
    · simp only [mget, hp, if_neg, not_false_iff] at h
      simp [mdel, hp, ih h]

theorem mget_mdel_ne {α : Type} (m : AList α) {k k' : String} (h : k' ≠ k) :
    mget (mdel m k) k' = mget m k' := by
  induction m with
  | nil => rfl
  | cons p m ih =>
    by_cases hp : p.1 = k
    · have hne : ¬ k = k' := fun he => h he.symm
      simp [mdel, mget, hp, hne]
    · have h1 : mdel (p :: m) k = p :: mdel m k := by simp [mdel, hp]
      rw [h1]
      by_cases hp' : p.1 = k' <;> simp [mget, hp', ih]

theorem mget_mdel_self_nodup {α : Type} {m : AList α}
    (h : (m.map Prod.fst).Nodup) (k : String) : mget (mdel m k) k = none := by
  induction m with
  | nil => rfl
  | cons p m ih =>
    simp only [List.map_cons, List.nodup_cons] at h
    by_cases hp : p.1 = k
    · simp only [mdel, hp, if_pos]
      rw [mget_eq_none_iff]
      exact hp ▸ h.1
    · simp [mdel, mget, hp, ih h.2]

theorem mget_mdel_none {α : Type} {m : AList α} {k' : String} (k : String)
    (h : mget m k' = none) : mget (mdel m k) k' = none := by
  by_cases he : k' = k
  · subst he
    rw [mget_eq_none_iff, map_fst_mdel]
    exact fun hm => (mget_eq_none_iff m k').1 h (List.mem_of_mem_erase hm)
  · rw [mget_mdel_ne m he]; exact h

theorem length_mdel_of_mem {α : Type} {m : AList α} {k : String} {v : α}
    (h : mget m k = some v) : (mdel m k).length + 1 = m.length := by
  induction m with
  | nil => simp [mget] at h
  | cons p m ih =>
    by_cases hp : p.1 = k
    · simp [mdel, hp]
    · simp only [mget, hp, if_neg, not_false_iff] at h
      simp [mdel, hp, ← ih h]

theorem length_mdel_le {α : Type} (m : AList α) (k : String) :
    (mdel m k).length ≤ m.length := by
  induction m with
  | nil => simp [mdel]
  | cons p m ih =>
    by_cases hp : p.1 = k
    · simp only [mdel, hp, if_pos, List.length_cons]
      omega
    · simp only [mdel, hp, if_neg, not_false_iff, List.length_cons]
      omega

theorem msum_mdel {m : AList Meta} {k : String} {x : Meta}
    (h : mget m k = some x) : msum (mdel m k) = msum m - (x.size : Int) := by
  induction m with
  | nil => simp [mget] at h
  | cons p m ih =>
    by_cases hp : p.1 = k
    · simp only [mget, hp, if_pos, Option.some.injEq] at h
      subst h
      simp only [mdel, hp, if_pos, msum, List.map_cons, List.sum_cons]
      ring
    · simp only [mget, hp, if_neg, not_false_iff] at h
      simp only [mdel, hp, if_neg, not_false_iff, msum, List.map_cons, List.sum_cons]
      have := ih h
      simp only [msum] at this
      rw [this]
      ring

theorem mset_of_none {α : Type} {m : AList α} {k : String}
    (h : mget m k = none) (v : α) : mset m k v = m ++ [(k, v)] := by
  induction m with
  | nil => rfl
  | cons p m ih =>
    by_cases hp : p.1 = k
    · simp [mget, hp] at h
    · simp only [mget, hp, if_neg, not_false_iff] at h
      simp [mset, hp, ih h]

theorem mget_mset_self {α : Type} (m : AList α) (k : String) (v : α) :
    mget (mset m k v) k = some v := by
  induction m with
  | nil => simp [mset, mget]
  | cons p m ih =>
    by_cases hp : p.1 = k <;> simp [mset, mget, hp, ih]

theorem mget_mset_ne {α : Type} (m : AList α) {k k' : String} (h : k' ≠ k) (v : α) :
    mget (mset m k v) k' = mget m k' := by
  have hne : ¬ k = k' := fun he => h he.symm
  induction m with
  | nil => simp [mset, mget, hne]
  | cons p m ih =>
    by_cases hp : p.1 = k
    · simp [mset, mget, hp, hne]
    · have h1 : mset (p :: m) k v = p :: mset m k v := by simp [mset, hp]
      rw [h1]
      by_cases hp' : p.1 = k' <;> simp [mget, hp', ih]

theorem map_fst_mset_of_some {α : Type} {m : AList α} {k : String} {x : α}
    (h : mget m k = some x) (v : α) : (mset m k v).map Prod.fst = m.map Prod.fst := by
  induction m with
  | nil => simp [mget] at h
  | cons p m ih =>
    by_cases hp : p.1 = k
    · simp [mset, hp]
    · simp only [mget, hp, if_neg, not_false_iff] at h
      simp [mset, hp, ih h]

theorem msum_mset_of_some {m : AList Meta} {k : String} {x : Meta}
    (h : mget m k = some x) (y : Meta) (hs : y.size = x.size) :
    msum (mset m k y) = msum m := by
  induction m with
  | nil => simp [mget] at h
  | cons p m ih =>
    by_cases hp : p.1 = k
    · simp only [mget, hp, if_pos, Option.some.injEq] at h
      simp [mset, hp, msum, hs, h]
    · simp only [mget, hp, if_neg, not_false_iff] at h
      have h1 : mset (p :: m) k y = p :: mset m k y := by simp [mset, hp]
      rw [h1]
      simp only [msum, List.map_cons, List.sum_cons]
      have := ih h
      simp only [msum] at this
      rw [this]

theorem mget_append_of_none {α : Type} {m₁ : AList α} {k : String}
    (h : mget m₁ k = none) (m₂ : AList α) : mget (m₁ ++ m₂) k = mget m₂ k := by
  induction m₁ with
  | nil => rfl
  | cons p m ih =>
    by_cases hp : p.1 = k
    · simp [mget, hp] at h
    · simp only [mget, hp, if_neg, not_false_iff] at h
      simp [mget, hp, ih h]

theorem mget_append_of_some {α : Type} {m₁ : AList α} {k : String} {v : α}
    (h : mget m₁ k = some v) (m₂ : AList α) : mget (m₁ ++ m₂) k = some v := by
  induction m₁ with
  | nil => simp [mget] at h
  | cons p m ih =>
    by_cases hp : p.1 = k
    · simp only [mget, hp, if_pos, Option.some.injEq] at h
      simp [mget, hp, h]
    · simp only [mget, hp, if_neg, not_false_iff] at h
      simp [mget, hp, ih h]

theorem mset_append_of_none {α : Type} {m : AList α} {k : String}
    (h : mget m k = none) (x y : α) : mset (m ++ [(k, x)]) k y = m ++ [(k, y)] := by
  induction m with
  | nil => simp [mset]
  | cons p m ih =>
    by_cases hp : p.1 = k
    · simp [mget, hp] at h
    · simp only [mget, hp, if_neg, not_false_iff] at h
      simp [mset, hp, ih h]

theorem mdel_eq_filter {α : Type} {m : AList α} (h : (m.map Prod.fst).Nodup) (k : String) :
    mdel m k = m.filter (fun p => p.1 ≠ k) := by
  induction m with
  | nil => rfl
  | cons p m ih =>
    simp only [List.map_cons, List.nodup_cons] at h
    by_cases hp : p.1 = k
    · have h1 : mdel (p :: m) k = m := by simp [mdel, hp]
      have h2 : List.filter (fun q => decide (q.1 ≠ k)) (p :: m)
          = List.filter (fun q => decide (q.1 ≠ k)) m := by
        rw [List.filter_cons]
        simp [hp]
      have h3 : List.filter (fun q => decide (q.1 ≠ k)) m = m := by
        apply List.filter_eq_self.2
        intro q hq
        have hqm : q.1 ∈ List.map Prod.fst m := List.mem_map_of_mem Prod.fst hq
        simp only [decide_eq_true_eq, ne_eq]
        intro he
        rw [he, ← hp] at hqm
        exact h.1 hqm
      rw [h1, h2, h3]
    · have h1 : mdel (p :: m) k = p :: mdel m k := by simp [mdel, hp]
      have h2 : List.filter (fun q => decide (q.1 ≠ k)) (p :: m)
          = p :: List.filter (fun q => decide (q.1 ≠ k)) m := by
        rw [List.filter_cons]
        simp [hp]
      rw [h1, h2, ih h.2]

/-! ### Properties of delete -/

theorem bool_cases (b : Bool) : b = false ∨ b = true := by
  cases b
  · exact Or.inl rfl
  · exact Or.inr rfl

theorem exists_mget_of_mem {α : Type} {m : AList α} {k : String}
    (hk : k ∈ m.map Prod.fst) : ∃ v, mget m k = some v := by
  rcases ho : mget m k with _ | v
  · exact absurd hk ((mget_eq_none_iff _ _).1 ho)
  · exact ⟨v, rfl⟩

theorem del_not_has {c : Cache} {k : String} (h : mhas c.cache k = false) :
    c.del k = (c, false) := by
  simp [Cache.del, h]

theorem del_has {c : Cache} {k : String} (h : mhas c.cache k = true) :
    c.del k =
      ({ c with
          memoryUsage := c.memoryUsage - ((mget c.metadata k).getD default).size
          cache := mdel c.cache k
          metadata := mdel c.metadata k
          accessOrder := c.accessOrder.erase k
          stats := { c.stats with deletes := c.stats.deletes + 1 } }, true) := by
  simp [Cache.del, h]

theorem del_config (c : Cache) (k : String) : ((c.del k).1).config = c.config := by
  rcases bool_cases (mhas c.cache k) with h | h
  · rw [del_not_has h]
  · rw [del_has h]

theorem del_mu_le (c : Cache) (k : String) :
    ((c.del k).1).memoryUsage ≤ c.memoryUsage := by
  rcases bool_cases (mhas c.cache k) with h | h
  · rw [del_not_has h]
  · rw [del_has h]
    show c.memoryUsage - (((mget c.metadata k).getD default).size : Int) ≤ c.memoryUsage
    omega

theorem keys_del (c : Cache) (k : String) :
    keys ((c.del k).1) = (keys c).erase k := by
  rcases bool_cases (mhas c.cache k) with h | h
  · rw [del_not_has h]
    exact (List.erase_of_not_mem ((mhas_eq_false_iff _ _).1 h)).symm
  · rw [del_has h]
    exact map_fst_mdel _ _

theorem keys_del_subset (c : Cache) (k : String) : keys ((c.del k).1) ⊆ keys c := by
  rw [keys_del]
  exact List.erase_subset k (keys c)

theorem length_del_le (c : Cache) (k : String) :
    ((c.del k).1).cache.length ≤ c.cache.length := by
  rcases bool_cases (mhas c.cache k) with h | h
  · rw [del_not_has h]
  · rw [del_has h]
    exact length_mdel_le _ _

theorem length_del_of_has {c : Cache} {k : String} (hk : mhas c.cache k = true) :
    ((c.del k).1).cache.length + 1 = c.cache.length := by
  rw [del_has hk]
  obtain ⟨v, hv⟩ := exists_mget_of_mem ((mhas_eq_true_iff _ _).1 hk)
  exact length_mdel_of_mem hv

theorem mget_del_cache_ne (c : Cache) {k k' : String} (h : k' ≠ k) :
    mget ((c.del k).1).cache k' = mget c.cache k' := by
  rcases bool_cases (mhas c.cache k) with hk | hk
  · rw [del_not_has hk]
  · rw [del_has hk]
    exact mget_mdel_ne _ h

theorem mget_del_meta_ne (c : Cache) {k k' : String} (h : k' ≠ k) :
    mget ((c.del k).1).metadata k' = mget c.metadata k' := by
  rcases bool_cases (mhas c.cache k) with hk | hk
  · rw [del_not_has hk]
  · rw [del_has hk]
    exact mget_mdel_ne _ h

theorem mget_del_cache_self {c : Cache} (h : Wf c) (k : String) :
    mget ((c.del k).1).cache k = none := by
  rcases bool_cases (mhas c.cache k) with hk | hk
  · rw [del_not_has hk]
    rw [mget_eq_none_iff]
    exact (mhas_eq_false_iff _ _).1 hk
  · rw [del_has hk]
    exact mget_mdel_self_nodup h.1 k

theorem Wf_del {c : Cache} (h : Wf c) (k : String) : Wf ((c.del k).1) := by
  obtain ⟨h1, h2, h3, h4⟩ := h
  rcases bool_cases (mhas c.cache k) with hk | hk
  · rw [del_not_has hk]; exact ⟨h1, h2, h3, h4⟩
  · have hkm : k ∈ keys c := (mhas_eq_true_iff _ _).1 hk
    have hkm' : k ∈ c.metadata.map Prod.fst := by rw [h2]; exact hkm
    obtain ⟨m, hm⟩ := exists_mget_of_mem hkm'
    rw [del_has hk]
    refine ⟨?_, ?_, ?_, ?_⟩
    · show ((mdel c.cache k).map Prod.fst).Nodup
      rw [map_fst_mdel]
      exact h1.erase k
    · show (mdel c.metadata k).map Prod.fst = (mdel c.cache k).map Prod.fst
      rw [map_fst_mdel, map_fst_mdel]
      unfold keys at h2
      rw [h2]
    · show (c.accessOrder.erase k).Perm ((mdel c.cache k).map Prod.fst)
      rw [map_fst_mdel]
      exact h3.erase k
    · show c.memoryUsage - (((mget c.metadata k).getD default).size : Int)
        = msum (mdel c.metadata k)
      rw [msum_mdel hm, h4, hm]
      rfl

/-! ### updateAccessOrder -/

theorem updateAccessOrder_fields (c : Cache) (k : String) :
    (c.updateAccessOrder k).cache = c.cache ∧
    (c.updateAccessOrder k).metadata = c.metadata ∧
    (c.updateAccessOrder k).accessOrder = c.accessOrder.erase k ++ [k] ∧
    (c.updateAccessOrder k).memoryUsage = c.memoryUsage ∧
    (c.updateAccessOrder k).stats = c.stats ∧
    (c.updateAccessOrder k).config = c.config :=
  ⟨rfl, rfl, rfl, rfl, rfl, rfl⟩

theorem erase_append_perm_of_mem {l : List String} {k : String} (h : k ∈ l) :
    (l.erase k ++ [k]).Perm l := by
  have h1 : l.Perm (k :: l.erase k) := List.perm_cons_erase h
  have h2 : (l.erase k ++ [k]).Perm (k :: l.erase k) := List.perm_append_comm
  exact h2.trans h1.symm

theorem erase_append_perm_of_not_mem {l : List String} {k : String} (h : k ∉ l) :
    l.erase k ++ [k] = l ++ [k] := by
  rw [List.erase_of_not_mem h]

/-! ### evictLRU -/

theorem Wf_stats_update {c : Cache} (s : Stats) (h : Wf c) : Wf { c with stats := s } := h

theorem lruScan_isSome (c : Cache) (now : Int) :
    ∀ (ks : List String) (b : String × ℚ), (lruScan c now ks (some b)).isSome = true := by
  intro ks
  induction ks with
  | nil => intro b; rfl
  | cons k ks ih =>
    intro b
    rw [show lruScan c now (k :: ks) (some b)
        = (if lruScore ((mget c.metadata k).getD default) now < b.2
           then lruScan c now ks (some (k, lruScore ((mget c.metadata k).getD default) now))
           else lruScan c now ks (some b)) from rfl]
    split
    · exact ih _
    · exact ih _

theorem lruScan_key (c : Cache) (now : Int) :
    ∀ (ks : List String) (best : Option (String × ℚ)) (r : String × ℚ),
      lruScan c now ks best = some r → r.1 ∈ ks ∨ best.map Prod.fst = some r.1 := by
  intro ks
  induction ks with
  | nil =>
    intro best r h
    right
    rw [show lruScan c now [] best = best from rfl] at h
    rw [h]
    rfl
  | cons k ks ih =>
    intro best r h
    match best with
    | none =>
      have h' : lruScan c now ks
          (some (k, lruScore ((mget c.metadata k).getD default) now)) = some r := h
      rcases ih _ _ h' with hm | hb
      · exact Or.inl (List.mem_cons_of_mem _ hm)
      · have hb' : k = r.1 := by simpa using hb
        refine Or.inl ?_
        rw [← hb']
        exact List.mem_cons_self k ks
    | some b =>
      rw [show lruScan c now (k :: ks) (some b)
          = (if lruScore ((mget c.metadata k).getD default) now < b.2
             then lruScan c now ks (some (k, lruScore ((mget c.metadata k).getD default) now))
             else lruScan c now ks (some b)) from rfl] at h
      split at h
      · rcases ih _ _ h with hm | hb
        · exact Or.inl (List.mem_cons_of_mem _ hm)
        · have hb' : k = r.1 := by simpa using hb
          refine Or.inl ?_
          rw [← hb']
          exact List.mem_cons_self k ks
      · rcases ih _ _ h with hm | hb
        · exact Or.inl (List.mem_cons_of_mem _ hm)
        · exact Or.inr hb

theorem lruScan_keeps (c : Cache) (now : Int) :
    ∀ (ks : List String) (b : String × ℚ),
      (∀ k ∈ ks, ¬ lruScore ((mget c.metadata k).getD default) now < b.2) →
      lruScan c now ks (some b) = some b := by
  intro ks
  induction ks with
  | nil => intro b _; rfl
  | cons k ks ih =>
    intro b hb
    rw [show lruScan c now (k :: ks) (some b)
        = (if lruScore ((mget c.metadata k).getD default) now < b.2
           then lruScan c now ks (some (k, lruScore ((mget c.metadata k).getD default) now))
           else lruScan c now ks (some b)) from rfl]
    rw [if_neg (hb k (List.mem_cons_self _ _))]
    exact ih b (fun k' hk' => hb k' (List.mem_cons_of_mem _ hk'))

theorem lruChoice_isSome {c : Cache} {now : Int} (h : ¬ c.accessOrder = []) :
    ∃ ek, c.lruChoice now = some ek ∧ ek ∈ c.accessOrder := by
  match hao : c.accessOrder with
  | [] => exact absurd hao h
  | a :: l =>
    have htake : c.accessOrder.take 10 = a :: l.take 9 := by rw [hao]; rfl
    have h1 : lruScan c now (c.accessOrder.take 10) none
        = lruScan c now (l.take 9)
            (some (a, lruScore ((mget c.metadata a).getD default) now)) := by
      rw [htake]; rfl
    have h2 := lruScan_isSome c now (l.take 9)
      (a, lruScore ((mget c.metadata a).getD default) now)
    rw [← h1] at h2
    obtain ⟨r, hr⟩ := Option.isSome_iff_exists.1 h2
    refine ⟨r.1, ?_, ?_⟩
    · rw [Cache.lruChoice, hr]
      rfl
    · rw [h1] at hr
      rcases lruScan_key c now _ _ _ hr with hm | hb
      · exact List.mem_cons_of_mem a (List.take_subset 9 l hm)
      · have hb' : a = r.1 := by simpa using hb
        rw [← hb']
        exact List.mem_cons_self a l

theorem lruChoice_head {c : Cache} {now : Int} {A : String} {rest : List String}
    (hao : c.accessOrder = A :: rest)
    (hA : lruScore ((mget c.metadata A).getD default) now = 0)
    (hscores : ∀ k ∈ c.accessOrder.take 10,
      0 ≤ lruScore ((mget c.metadata k).getD default) now) :
    c.lruChoice now = some A := by
  have htake : c.accessOrder.take 10 = A :: rest.take 9 := by rw [hao]; rfl
  have h1 : lruScan c now (c.accessOrder.take 10) none
      = lruScan c now (rest.take 9)
          (some (A, lruScore ((mget c.metadata A).getD default) now)) := by
    rw [htake]; rfl
  rw [Cache.lruChoice, h1, hA]
  rw [lruScan_keeps c now (rest.take 9) (A, 0) ?_]
  · rfl
  · intro k hk
    have hk10 : k ∈ c.accessOrder.take 10 := by
      rw [htake]; exact List.mem_cons_of_mem _ hk
    exact not_lt.2 (hscores k hk10)

theorem not_isEmpty_of_ne_nil {l : List String} (h : ¬ l = []) :
    ¬ l.isEmpty = true := by
  cases l with
  | nil => exact absurd rfl h
  | cons a l => intro hf; cases hf

theorem evictLRU_spec (c : Cache) (now : Int) :
    c.evictLRU now = c ∨
    ∃ ek, c.lruChoice now = some ek ∧ ek ≠ "" ∧ ek ∈ c.accessOrder ∧
      c.evictLRU now
        = { (c.del ek).1 with stats :=
            { (c.del ek).1.stats with evictions := (c.del ek).1.stats.evictions + 1 } } := by
  by_cases hemp : c.accessOrder.isEmpty
  · left
    simp [Cache.evictLRU, hemp]
  · have hne : ¬ c.accessOrder = [] := by
      intro h0
      rw [h0] at hemp
      exact hemp rfl
    obtain ⟨ek, hek, hmem⟩ := @lruChoice_isSome c now hne
    by_cases he : ek = ""
    · left
      simp [Cache.evictLRU, hemp, hek, he]
    · right
      refine ⟨ek, hek, he, hmem, ?_⟩
      simp [Cache.evictLRU, hemp, hek, he]

theorem evictLRU_of_choice {c : Cache} {now : Int} {ek : String}
    (hc : c.lruChoice now = some ek) (hne : ek ≠ "") (hno : ¬ c.accessOrder = []) :
    c.evictLRU now
      = { (c.del ek).1 with stats :=
          { (c.del ek).1.stats with evictions := (c.del ek).1.stats.evictions + 1 } } := by
  simp [Cache.evictLRU, not_isEmpty_of_ne_nil hno, hc, hne]

theorem evictLRU_config (c : Cache) (now : Int) : (c.evictLRU now).config = c.config := by
  rcases evictLRU_spec c now with h | ⟨ek, _, _, _, h⟩
  · rw [h]
  · rw [h]
    exact del_config c ek

theorem evictLRU_mu_le (c : Cache) (now : Int) :
    (c.evictLRU now).memoryUsage ≤ c.memoryUsage := by
  rcases evictLRU_spec c now with h | ⟨ek, _, _, _, h⟩
  · rw [h]
  · rw [h]
    exact del_mu_le c ek

theorem evictLRU_length_le (c : Cache) (now : Int) :
    (c.evictLRU now).cache.length ≤ c.cache.length := by
  rcases evictLRU_spec c now with h | ⟨ek, _, _, _, h⟩
  · rw [h]
  · rw [h]
    exact length_del_le c ek

theorem keys_evictLRU_subset (c : Cache) (now : Int) : keys (c.evictLRU now) ⊆ keys c := by
  rcases evictLRU_spec c now with h | ⟨ek, _, _, _, h⟩
  · rw [h]
    exact fun x hx => hx
  · rw [h]
    exact keys_del_subset c ek

theorem Wf_evictLRU {c : Cache} (h : Wf c) (now : Int) : Wf (c.evictLRU now) := by
  rcases evictLRU_spec c now with he | ⟨ek, _, _, _, he⟩
  · rw [he]; exact h
  · rw [he]
    exact Wf_stats_update _ (Wf_del h ek)

theorem evictLRU_evicts {c : Cache} (h : Wf c) {now : Int}
    (hne : ¬ c.accessOrder = []) (hkeys : ∀ k ∈ keys c, k ≠ "") :
    (c.evictLRU now).cache.length + 1 = c.cache.length := by
  obtain ⟨ek, hek, hmem⟩ := @lruChoice_isSome c now hne
  have hkc : ek ∈ keys c := (h.2.2.1.mem_iff).1 hmem
  have hkne : ek ≠ "" := hkeys ek hkc
  rw [evictLRU_of_choice hek hkne hne]
  show ((c.del ek).1).cache.length + 1 = c.cache.length
  exact length_del_of_has ((mhas_eq_true_iff _ _).2 hkc)

/-! ### evictByMemory -/

theorem insertOrdered_perm {α : Type} (le : α → α → Bool) (x : α) (l : List α) :
    (insertOrdered le x l).Perm (x :: l) := by
  induction l with
  | nil => exact List.Perm.refl _
  | cons y ys ih =>
    rw [show insertOrdered le x (y :: ys)
        = (if le y x then y :: insertOrdered le x ys else x :: y :: ys) from rfl]
    split
    · exact (ih.cons y).trans (List.Perm.swap x y ys)
    · exact List.Perm.refl _

theorem foldl_insertOrdered_perm {α : Type} (le : α → α → Bool) :
    ∀ (xs acc : List α), (xs.foldl (fun a x => insertOrdered le x a) acc).Perm (acc ++ xs) := by
  intro xs
  induction xs with
  | nil => intro acc; simp
  | cons x xs ih =>
    intro acc
    have h1 := ih (insertOrdered le x acc)
    have h2 : (insertOrdered le x acc ++ xs).Perm ((x :: acc) ++ xs) :=
      (insertOrdered_perm le x acc).append_right xs
    have h3 : ((x :: acc) ++ xs).Perm (acc ++ x :: xs) := by
      simp only [List.cons_append]
      exact List.perm_middle.symm
    exact (h1.trans h2).trans h3

theorem stableSort_perm {α : Type} (le : α → α → Bool) (xs : List α) :
    (stableSort le xs).Perm xs := by
  have h := foldl_insertOrdered_perm le xs []
  simpa [stableSort] using h

theorem mu_del_of_has {c : Cache} {k : String} {m : Meta}
    (hm : mget c.metadata k = some m) (hk : mhas c.cache k = true) :
    ((c.del k).1).memoryUsage = c.memoryUsage - (m.size : Int) := by
  rw [del_has hk]
  show c.memoryUsage - (((mget c.metadata k).getD default).size : Int) = _
  rw [hm]
  rfl

theorem metadata_del_of_has {c : Cache} {k : String} (hk : mhas c.cache k = true) :
    ((c.del k).1).metadata = mdel c.metadata k := by
  rw [del_has hk]

theorem evictByMemoryGo_spec (requiredSize : Nat) :
    ∀ (cands : List (String × ℚ × Nat)) (freed : Nat) (c : Cache),
      Wf c →
      (∀ p ∈ cands, ∃ m, mget c.metadata p.1 = some m ∧ m.size = p.2.2) →
      (cands.map Prod.fst).Nodup →
      (∀ k ∈ c.metadata.map Prod.fst, k ∈ cands.map Prod.fst) →
      Wf (evictByMemoryGo requiredSize cands freed c) ∧
      (evictByMemoryGo requiredSize cands freed c).config = c.config ∧
      (evictByMemoryGo requiredSize cands freed c).memoryUsage ≤ c.memoryUsage ∧
      (evictByMemoryGo requiredSize cands freed c).cache.length ≤ c.cache.length ∧
      keys (evictByMemoryGo requiredSize cands freed c) ⊆ keys c ∧
      ((evictByMemoryGo requiredSize cands freed c).memoryUsage + (requiredSize : Int)
          ≤ c.memoryUsage + (freed : Int) ∨
        (evictByMemoryGo requiredSize cands freed c).metadata = []) := by
  intro cands
  induction cands with
  | nil =>
    intro freed c hwf hcand hnd hsub
    have hmeta : c.metadata = [] := by
      rcases hm0 : c.metadata with _ | ⟨p, m⟩
      · rfl
      · rw [hm0] at hsub
        exact absurd (hsub p.1 (List.mem_map_of_mem Prod.fst (List.mem_cons_self p m)))
          (List.not_mem_nil p.1)
    exact ⟨hwf, rfl, le_refl _, le_refl _, fun x hx => hx, Or.inr hmeta⟩
  | cons cand rest ih =>
    intro freed c hwf hcand hnd hsub
    rw [show evictByMemoryGo requiredSize (cand :: rest) freed c
        = (if requiredSize ≤ freed then c
           else evictByMemoryGo requiredSize rest (freed + cand.2.2)
             { (c.del cand.1).1 with stats :=
               { (c.del cand.1).1.stats with
                   evictions := (c.del cand.1).1.stats.evictions + 1 } }) from rfl]
    by_cases hfr : requiredSize ≤ freed
    · rw [if_pos hfr]
      refine ⟨hwf, rfl, le_refl _, le_refl _, fun x hx => hx, Or.inl ?_⟩
      have : (requiredSize : Int) ≤ (freed : Int) := Int.ofNat_le.2 hfr
      omega
    · rw [if_neg hfr]
      obtain ⟨m, hm, hms⟩ := hcand cand (List.mem_cons_self _ _)
      have hmem_meta : cand.1 ∈ c.metadata.map Prod.fst :=
        List.mem_map_of_mem Prod.fst (mem_of_mget_eq_some hm)
      have hmem_keys : cand.1 ∈ keys c := by rw [← hwf.2.1]; exact hmem_meta
      have hhas : mhas c.cache cand.1 = true := (mhas_eq_true_iff _ _).2 hmem_keys
      set c₁ : Cache :=
        { (c.del cand.1).1 with stats :=
          { (c.del cand.1).1.stats with
              evictions := (c.del cand.1).1.stats.evictions + 1 } } with hc₁
      have hwf₁ : Wf c₁ := Wf_stats_update _ (Wf_del hwf cand.1)
      have hmu₁ : c₁.memoryUsage = c.memoryUsage - (cand.2.2 : Int) := by
        show ((c.del cand.1).1).memoryUsage = _
        rw [mu_del_of_has hm hhas, hms]
      have hmeta₁ : c₁.metadata = mdel c.metadata cand.1 := metadata_del_of_has hhas
      have hcfg₁ : c₁.config = c.config := del_config c cand.1
      have hlen₁ : c₁.cache.length ≤ c.cache.length := length_del_le c cand.1
      have hkeys₁ : keys c₁ ⊆ keys c := keys_del_subset c cand.1
      have hmetand : (c.metadata.map Prod.fst).Nodup := by
        rw [hwf.2.1]; exact hwf.1
      have hcand₁ : ∀ p ∈ rest, ∃ m', mget c₁.metadata p.1 = some m' ∧ m'.size = p.2.2 := by
        intro p hp
        obtain ⟨m', hm', hms'⟩ := hcand p (List.mem_cons_of_mem _ hp)
        refine ⟨m', ?_, hms'⟩
        have hne : p.1 ≠ cand.1 := by
          intro he
          have h1 : cand.1 ∈ rest.map Prod.fst := he ▸ List.mem_map_of_mem Prod.fst hp
          simp only [List.map_cons, List.nodup_cons] at hnd
          exact hnd.1 h1
        rw [hmeta₁, mget_mdel_ne _ hne]
        exact hm'
      have hsub₁ : ∀ k ∈ c₁.metadata.map Prod.fst, k ∈ rest.map Prod.fst := by
        intro k hk
        rw [hmeta₁, map_fst_mdel] at hk
        have hk2 := (hmetand.mem_erase_iff).1 hk
        have hk3 := hsub k hk2.2
        simp only [List.map_cons, List.mem_cons] at hk3
        rcases hk3 with he | hr
        · exact absurd he hk2.1
        · exact hr
      have hnd₁ : (rest.map Prod.fst).Nodup := by
        simp only [List.map_cons, List.nodup_cons] at hnd
        exact hnd.2
      obtain ⟨g1, g2, g3, g4, g5, g6⟩ := ih (freed + cand.2.2) c₁ hwf₁ hcand₁ hnd₁ hsub₁
      refine ⟨g1, g2.trans hcfg₁, ?_, g4.trans hlen₁, fun x hx => hkeys₁ (g5 hx), ?_⟩
      · have : (0:Int) ≤ (cand.2.2 : Int) := Int.ofNat_nonneg _
        omega
      · rcases g6 with g6 | g6
        · left
          rw [hmu₁] at g6
          push_cast at g6 ⊢
          omega
        · exact Or.inr g6

theorem evictByMemory_spec {c : Cache} (hwf : Wf c) (now : Int) (requiredSize : Nat) :
    Wf (c.evictByMemory now requiredSize) ∧
    (c.evictByMemory now requiredSize).config = c.config ∧
    (c.evictByMemory now requiredSize).memoryUsage ≤ c.memoryUsage ∧
    (c.evictByMemory now requiredSize).cache.length ≤ c.cache.length ∧
    keys (c.evictByMemory now requiredSize) ⊆ keys c ∧
    ((c.evictByMemory now requiredSize).memoryUsage + (requiredSize : Int) ≤ c.memoryUsage ∨
      (c.evictByMemory now requiredSize).metadata = []) := by
  have hmetand : (c.metadata.map Prod.fst).Nodup := by
    rw [hwf.2.1]; exact hwf.1
  have hperm : (stableSort (fun a b => decide (a.2.1 ≤ b.2.1))
      (c.metadata.map (fun p => (p.1, calculateEvictionScore p.2 now, p.2.size)))).Perm
      (c.metadata.map (fun p => (p.1, calculateEvictionScore p.2 now, p.2.size))) :=
    stableSort_perm _ _
  have hfst : (c.metadata.map (fun p => (p.1, calculateEvictionScore p.2 now, p.2.size))).map
      Prod.fst = c.metadata.map Prod.fst := by
    rw [List.map_map]; rfl
  have hpermfst : ((stableSort (fun a b => decide (a.2.1 ≤ b.2.1))
      (c.metadata.map (fun p => (p.1, calculateEvictionScore p.2 now, p.2.size)))).map
      Prod.fst).Perm (c.metadata.map Prod.fst) := by
    rw [← hfst]
    exact hperm.map Prod.fst
  have hnd : ((stableSort (fun a b => decide (a.2.1 ≤ b.2.1))
      (c.metadata.map (fun p => (p.1, calculateEvictionScore p.2 now, p.2.size)))).map
      Prod.fst).Nodup := hpermfst.nodup_iff.2 hmetand
  have hcand : ∀ p ∈ stableSort (fun a b => decide (a.2.1 ≤ b.2.1))
      (c.metadata.map (fun q => (q.1, calculateEvictionScore q.2 now, q.2.size))),
      ∃ m, mget c.metadata p.1 = some m ∧ m.size = p.2.2 := by
    intro p hp
    have hp2 := hperm.subset hp
    obtain ⟨q, hq, hqe⟩ := List.mem_map.1 hp2
    refine ⟨q.2, ?_, ?_⟩
    · rw [← hqe]
      exact mget_of_mem_nodup hmetand hq
    · rw [← hqe]
  have hsub : ∀ k ∈ c.metadata.map Prod.fst,
      k ∈ (stableSort (fun a b => decide (a.2.1 ≤ b.2.1))
        (c.metadata.map (fun p => (p.1, calculateEvictionScore p.2 now, p.2.size)))).map
        Prod.fst := by
    intro k hk
    exact hpermfst.mem_iff.2 (hfst ▸ hk)
  have h := evictByMemoryGo_spec requiredSize _ 0 c hwf hcand hnd hsub
  rw [show c.evictByMemory now requiredSize
      = evictByMemoryGo requiredSize (stableSort (fun a b => decide (a.2.1 ≤ b.2.1))
          (c.metadata.map (fun p => (p.1, calculateEvictionScore p.2 now, p.2.size)))) 0 c
      from rfl]
  obtain ⟨g1, g2, g3, g4, g5, g6⟩ := h
  refine ⟨g1, g2, g3, g4, g5, ?_⟩
  rcases g6 with g6 | g6
  · left; simpa using g6
  · exact Or.inr g6

/-! ### The stages of set -/

theorem memPressure_spec {c : Cache} (hwf : Wf c) (now : Int) (size : Nat) :
    Wf (memPressure c now size) ∧
    (memPressure c now size).config = c.config ∧
    (memPressure c now size).memoryUsage ≤ c.memoryUsage ∧
    (memPressure c now size).cache.length ≤ c.cache.length ∧
    keys (memPressure c now size) ⊆ keys c := by
  unfold memPressure
  split
  · obtain ⟨g1, g2, g3, g4, g5, _⟩ := evictByMemory_spec hwf now size
    exact ⟨g1, g2, g3, g4, g5⟩
  · exact ⟨hwf, rfl, le_refl _, le_refl _, fun x hx => hx⟩

theorem memPressure_mu {c : Cache} (hwf : Wf c) {now : Int} {size : Nat}
    (hmu : c.memoryUsage ≤ (c.config.maxMemory : Int))
    (hsz : (size : Int) < (c.config.maxMemory : Int)) :
    (memPressure c now size).memoryUsage + (size : Int) ≤ (c.config.maxMemory : Int) := by
  unfold memPressure
  split
  · obtain ⟨g1, _, _, _, _, g6⟩ := evictByMemory_spec hwf now size
    rcases g6 with g6 | g6
    · omega
    · have h0 : (c.evictByMemory now size).memoryUsage = 0 := by
        rw [g1.2.2.2, g6]
        rfl
      omega
  · omega

theorem capPressure_spec {c : Cache} (hwf : Wf c) (now : Int) :
    Wf (capPressure c now) ∧
    (capPressure c now).config = c.config ∧
    (capPressure c now).memoryUsage ≤ c.memoryUsage ∧
    (capPressure c now).cache.length ≤ c.cache.length ∧
    keys (capPressure c now) ⊆ keys c := by
  unfold capPressure
  split
  · exact ⟨Wf_evictLRU hwf now, evictLRU_config c now, evictLRU_mu_le c now,
      evictLRU_length_le c now, keys_evictLRU_subset c now⟩
  · exact ⟨hwf, rfl, le_refl _, le_refl _, fun x hx => hx⟩

theorem capPressure_length {c : Cache} (hwf : Wf c) {now : Int}
    (hmax : 1 ≤ c.config.maxSize) (hkeys : ∀ x ∈ keys c, x ≠ "")
    (hlen : c.cache.length ≤ c.config.maxSize) :
    (capPressure c now).cache.length + 1 ≤ c.config.maxSize := by
  unfold capPressure
  split
  · next hcap =>
    have hlen1 : c.cache.length = c.config.maxSize := le_antisymm hlen hcap
    have hne : ¬ c.accessOrder = [] := by
      intro h0
      have hp := hwf.2.2.1
      rw [h0] at hp
      have hlp := hp.length_eq
      have hkl : (keys c).length = c.cache.length := List.length_map c.cache Prod.fst
      simp only [List.length_nil] at hlp
      omega
    have hev := @evictLRU_evicts c hwf now hne hkeys
    omega
  · next hcap =>
    have : c.cache.length < c.config.maxSize := lt_of_not_le hcap
    omega

theorem replaceOld_spec {c : Cache} (hwf : Wf c) (key : String) :
    Wf (replaceOld c key) ∧
    (replaceOld c key).config = c.config ∧
    (replaceOld c key).memoryUsage ≤ c.memoryUsage ∧
    (replaceOld c key).cache.length ≤ c.cache.length ∧
    keys (replaceOld c key) ⊆ keys c ∧
    mget (replaceOld c key).cache key = none := by
  unfold replaceOld
  split
  · exact ⟨Wf_del hwf key, del_config c key, del_mu_le c key, length_del_le c key,
      keys_del_subset c key, mget_del_cache_self hwf key⟩
  · next hhas =>
    refine ⟨hwf, rfl, le_refl _, le_refl _, fun x hx => hx, ?_⟩
    rw [mget_eq_none_iff]
    intro hk
    exact hhas ((mhas_eq_true_iff _ _).2 hk)

theorem setEvictions_spec {c : Cache} (hwf : Wf c) (now : Int) (size : Nat) (key : String) :
    Wf (setEvictions c now size key) ∧
    (setEvictions c now size key).config = c.config ∧
    (setEvictions c now size key).memoryUsage ≤ c.memoryUsage ∧
    (setEvictions c now size key).cache.length ≤ c.cache.length ∧
    keys (setEvictions c now size key) ⊆ keys c ∧
    mget (setEvictions c now size key).cache key = none := by
  obtain ⟨w1, cf1, m1, l1, k1⟩ := memPressure_spec hwf now size
  obtain ⟨w2, cf2, m2, l2, k2⟩ := capPressure_spec w1 now
  obtain ⟨w3, cf3, m3, l3, k3, g3⟩ := replaceOld_spec w2 key
  exact ⟨w3, (cf3.trans cf2).trans cf1, (m3.trans m2).trans m1,
    (l3.trans l2).trans l1, fun x hx => k1 (k2 (k3 hx)), g3⟩

/-! ### insertEntry and set -/

theorem insertEntry_fields (c : Cache) (now : Int) (key : String) (value : JSValue)
    (ttl priority : Int) (tags : List String) :
    (c.insertEntry now key value ttl priority tags).cache = mset c.cache key value ∧
    (c.insertEntry now key value ttl priority tags).metadata
      = mset c.metadata key
          { size := getObjectSize value, timestamp := now, expiry := now + ttl, hits := 0
            priority := priority, tags := tags, lastAccess := now } ∧
    (c.insertEntry now key value ttl priority tags).accessOrder
      = c.accessOrder.erase key ++ [key] ∧
    (c.insertEntry now key value ttl priority tags).memoryUsage
      = c.memoryUsage + (getObjectSize value : Int) ∧
    (c.insertEntry now key value ttl priority tags).config = c.config :=
  ⟨rfl, rfl, rfl, rfl, rfl⟩

theorem insertEntry_spec {c : Cache} (hwf : Wf c) {key : String}
    (hk : mget c.cache key = none) (now : Int) (value : JSValue)
    (ttl priority : Int) (tags : List String) :
    (c.insertEntry now key value ttl priority tags).cache = c.cache ++ [(key, value)] ∧
    (c.insertEntry now key value ttl priority tags).metadata
      = c.metadata ++ [(key,
          { size := getObjectSize value, timestamp := now, expiry := now + ttl, hits := 0
            priority := priority, tags := tags, lastAccess := now })] ∧
    (c.insertEntry now key value ttl priority tags).accessOrder = c.accessOrder ++ [key] ∧
    (c.insertEntry now key value ttl priority tags).memoryUsage
      = c.memoryUsage + (getObjectSize value : Int) ∧
    (c.insertEntry now key value ttl priority tags).config = c.config ∧
    Wf (c.insertEntry now key value ttl priority tags) := by
  obtain ⟨f1, f2, f3, f4, f5⟩ := insertEntry_fields c now key value ttl priority tags
  have hknotin : key ∉ keys c := (mget_eq_none_iff _ _).1 hk
  have hkmeta : mget c.metadata key = none := by
    rw [mget_eq_none_iff, hwf.2.1]
    exact hknotin
  have hao : key ∉ c.accessOrder := fun hx => hknotin (hwf.2.2.1.mem_iff.1 hx)
  have e1 : (c.insertEntry now key value ttl priority tags).cache
      = c.cache ++ [(key, value)] := by rw [f1, mset_of_none hk]
  have e2 : (c.insertEntry now key value ttl priority tags).metadata
      = c.metadata ++ [(key,
          { size := getObjectSize value, timestamp := now, expiry := now + ttl, hits := 0
            priority := priority, tags := tags, lastAccess := now })] := by
    rw [f2, mset_of_none hkmeta]
  have e3 : (c.insertEntry now key value ttl priority tags).accessOrder
      = c.accessOrder ++ [key] := by rw [f3, List.erase_of_not_mem hao]
  refine ⟨e1, e2, e3, f4, f5, ?_, ?_, ?_, ?_⟩
  · show ((c.insertEntry now key value ttl priority tags).cache.map Prod.fst).Nodup
    rw [e1]
    simp only [List.map_append, List.map_cons, List.map_nil]
    rw [List.nodup_append]
    exact ⟨hwf.1, List.nodup_singleton key,
      fun x hx => by simp only [List.mem_singleton]; intro he; exact hknotin (he ▸ hx)⟩
  · show (c.insertEntry now key value ttl priority tags).metadata.map Prod.fst
      = (c.insertEntry now key value ttl priority tags).cache.map Prod.fst
    rw [e1, e2]
    simp only [List.map_append, List.map_cons, List.map_nil]
    rw [hwf.2.1]
    rfl
  · show ((c.insertEntry now key value ttl priority tags).accessOrder).Perm
      ((c.insertEntry now key value ttl priority tags).cache.map Prod.fst)
    rw [e1, e3]
    simp only [List.map_append, List.map_cons, List.map_nil]
    exact hwf.2.2.1.append_right [key]
  · show (c.insertEntry now key value ttl priority tags).memoryUsage
      = msum (c.insertEntry now key value ttl priority tags).metadata
    rw [e2, f4, hwf.2.2.2]
    simp [msum]

theorem set_eq (c : Cache) (now : Int) (key : String) (value : JSValue) (options : SetOptions) :
    c.set now key value options
      = (setEvictions c now (getObjectSize value) key).insertEntry now key value
          (orDefaultInt options.ttl c.config.defaultTTL) (orDefaultInt options.priority 0)
          (options.tags.getD []) := rfl

theorem Wf_set {c : Cache} (hwf : Wf c) (now : Int) (key : String) (value : JSValue)
    (options : SetOptions) : Wf (c.set now key value options) := by
  rw [set_eq]
  obtain ⟨w3, _, _, _, _, g3⟩ := setEvictions_spec hwf now (getObjectSize value) key
  exact (insertEntry_spec w3 g3 now value _ _ _).2.2.2.2.2

theorem set_config {c : Cache} (hwf : Wf c) (now : Int) (key : String) (value : JSValue)
    (options : SetOptions) : (c.set now key value options).config = c.config := by
  rw [set_eq]
  obtain ⟨w3, cf3, _, _, _, g3⟩ := setEvictions_spec hwf now (getObjectSize value) key
  exact ((insertEntry_spec w3 g3 now value _ _ _).2.2.2.2.1).trans cf3

theorem set_lookup {c : Cache} (hwf : Wf c) (now : Int) (key : String) (value : JSValue)
    (options : SetOptions) :
    mget (c.set now key value options).cache key = some value ∧
    mget (c.set now key value options).metadata key
      = some { size := getObjectSize value, timestamp := now
               expiry := now + orDefaultInt options.ttl c.config.defaultTTL, hits := 0
               priority := orDefaultInt options.priority 0, tags := options.tags.getD []
               lastAccess := now } := by
  rw [set_eq]
  obtain ⟨w3, _, _, _, _, g3⟩ := setEvictions_spec hwf now (getObjectSize value) key
  obtain ⟨e1, e2, _, _, _, _⟩ := insertEntry_spec w3 g3 now value
    (orDefaultInt options.ttl c.config.defaultTTL) (orDefaultInt options.priority 0)
    (options.tags.getD [])
  have hkmeta : mget (setEvictions c now (getObjectSize value) key).metadata key = none := by
    rw [mget_eq_none_iff, w3.2.1]
    exact (mget_eq_none_iff _ _).1 g3
  constructor
  · rw [e1, mget_append_of_none g3]
    simp [mget]
  · rw [e2, mget_append_of_none hkmeta]
    simp [mget]

theorem keys_set {c : Cache} (hwf : Wf c) (now : Int) (key : String) (value : JSValue)
    (options : SetOptions) :
    keys (c.set now key value options)
      = keys (setEvictions c now (getObjectSize value) key) ++ [key] := by
  rw [set_eq]
  obtain ⟨w3, _, _, _, _, g3⟩ := setEvictions_spec hwf now (getObjectSize value) key
  obtain ⟨e1, _, _, _, _, _⟩ := insertEntry_spec w3 g3 now value _ _ _
  show (_ : Cache).cache.map Prod.fst = _
  rw [e1]
  simp [keys]

theorem set_capacity {c : Cache} (hwf : Wf c)
    (hmax : 1 ≤ c.config.maxSize) (hkeys : ∀ x ∈ keys c, x ≠ "")
    (hlen : c.cache.length ≤ c.config.maxSize) (now : Int) (key : String)
    (value : JSValue) (options : SetOptions) :
    (c.set now key value options).cache.length ≤ c.config.maxSize := by
  rw [set_eq]
  obtain ⟨w1, cf1, _, l1, k1⟩ := memPressure_spec hwf now (getObjectSize value)
  have hkeys1 : ∀ x ∈ keys (memPressure c now (getObjectSize value)), x ≠ "" :=
    fun x hx => hkeys x (k1 hx)
  have hcap := @capPressure_length (memPressure c now (getObjectSize value)) w1 now
    (by rw [cf1]; exact hmax) hkeys1 (by rw [cf1]; omega)
  rw [cf1] at hcap
  obtain ⟨w2, cf2, _, _, _⟩ := capPressure_spec w1 now
  obtain ⟨w3, cf3, _, l3, _, g3⟩ := replaceOld_spec w2 key
  obtain ⟨e1, _, _, _, _, _⟩ := insertEntry_spec w3 g3 now value
    (orDefaultInt options.ttl c.config.defaultTTL) (orDefaultInt options.priority 0)
    (options.tags.getD [])
  rw [show setEvictions c now (getObjectSize value) key
      = replaceOld (capPressure (memPressure c now (getObjectSize value)) now) key from rfl]
  rw [e1]
  simp only [List.length_append, List.length_cons, List.length_nil]
  omega

theorem keys_set_mem {c : Cache} (hwf : Wf c) (now : Int) (key : String) (value : JSValue)
    (options : SetOptions) :
    ∀ x ∈ keys (c.set now key value options), x ∈ keys c ∨ x = key := by
  intro x hx
  rw [keys_set hwf now key value options] at hx
  rcases List.mem_append.1 hx with hx | hx
  · exact Or.inl ((setEvictions_spec hwf now (getObjectSize value) key).2.2.2.2.1 hx)
  · exact Or.inr (List.mem_singleton.1 hx)

theorem set_memory {c : Cache} (hwf : Wf c) {value : JSValue}
    (hmu : c.memoryUsage ≤ (c.config.maxMemory : Int))
    (hsz : (getObjectSize value : Int) < (c.config.maxMemory : Int))
    (now : Int) (key : String) (options : SetOptions) :
    (c.set now key value options).memoryUsage ≤ (c.config.maxMemory : Int) := by
  rw [set_eq]
  have hm1 := @memPressure_mu c hwf now (getObjectSize value) hmu hsz
  obtain ⟨w1, cf1, _, _, _⟩ := memPressure_spec hwf now (getObjectSize value)
  obtain ⟨w2, cf2, m2, _, _⟩ := capPressure_spec w1 now
  obtain ⟨w3, cf3, m3, _, _, g3⟩ := replaceOld_spec w2 key
  obtain ⟨_, _, _, e4, _, _⟩ := insertEntry_spec w3 g3 now value
    (orDefaultInt options.ttl c.config.defaultTTL) (orDefaultInt options.priority 0)
    (options.tags.getD [])
  rw [show setEvictions c now (getObjectSize value) key
      = replaceOld (capPressure (memPressure c now (getObjectSize value)) now) key from rfl]
  rw [e4]
  omega

/-! ### get -/

theorem get_miss_absent {c : Cache} {key : String} (h : mhas c.cache key = false) (now : Int) :
    c.get now key
      = ({ c with stats := { c.stats with misses := c.stats.misses + 1 } }, JSValue.vNull) := by
  simp [Cache.get, h]

theorem get_miss_expired {c : Cache} {key : String} {m : Meta}
    (hm : mget c.metadata key = some m) (hk : mhas c.cache key = true)
    {now : Int} (hexp : now > m.expiry) :
    c.get now key
      = ({ (c.del key).1 with stats :=
          { (c.del key).1.stats with misses := (c.del key).1.stats.misses + 1 } },
         JSValue.vNull) := by
  rw [Cache.get, if_neg (by rw [hk]; exact fun he => Bool.noConfusion he)]
  rw [hm]
  simp only [Option.getD_some]
  rw [if_pos hexp]

theorem get_hit {c : Cache} {key : String} {m : Meta} {v : JSValue}
    (hm : mget c.metadata key = some m) (hv : mget c.cache key = some v)
    {now : Int} (hexp : ¬ now > m.expiry) :
    c.get now key
      = ({ c with
            metadata := mset c.metadata key { m with hits := m.hits + 1, lastAccess := now }
            accessOrder := c.accessOrder.erase key ++ [key]
            stats := { c.stats with hits := c.stats.hits + 1 } }, v) := by
  have hk : mhas c.cache key = true := by rw [mhas, hv]; rfl
  rw [Cache.get, if_neg (by rw [hk]; exact fun he => Bool.noConfusion he)]
  rw [hm]
  simp only [Option.getD_some]
  rw [if_neg hexp, hv]
  rfl

theorem Wf_get {c : Cache} (hwf : Wf c) (now : Int) (key : String) :
    Wf (c.get now key).1 := by
  rcases bool_cases (mhas c.cache key) with hk | hk
  · rw [get_miss_absent hk now]
    exact Wf_stats_update _ hwf
  · obtain ⟨v, hv⟩ := exists_mget_of_mem ((mhas_eq_true_iff _ _).1 hk)
    have hkm : key ∈ c.metadata.map Prod.fst := by
      rw [hwf.2.1]
      exact (mhas_eq_true_iff _ _).1 hk
    obtain ⟨m, hm⟩ := exists_mget_of_mem hkm
    by_cases hexp : now > m.expiry
    · rw [get_miss_expired hm hk hexp]
      exact Wf_stats_update _ (Wf_del hwf key)
    · rw [get_hit hm hv hexp]
      refine ⟨hwf.1, ?_, ?_, ?_⟩
      · show (mset c.metadata key _).map Prod.fst = keys c
        rw [map_fst_mset_of_some hm]
        exact hwf.2.1
      · show (c.accessOrder.erase key ++ [key]).Perm (keys c)
        have hkk : key ∈ keys c := (mhas_eq_true_iff _ _).1 hk
        have hka : key ∈ c.accessOrder := hwf.2.2.1.mem_iff.2 hkk
        exact (erase_append_perm_of_mem hka).trans hwf.2.2.1
      · show c.memoryUsage = msum (mset c.metadata key _)
        rw [msum_mset_of_some hm { m with hits := m.hits + 1, lastAccess := now } rfl]
        exact hwf.2.2.2

/-! ### Folded deletions: cleanup and invalidateByTag -/

theorem contains_iff (l : List String) (a : String) : l.contains a = true ↔ a ∈ l := by
  induction l with
  | nil => simp
  | cons x xs ih => simp

theorem eq_of_mem_nodup_fst {α : Type} {m : AList α} (h : (m.map Prod.fst).Nodup)
    {p q : String × α} (hp : p ∈ m) (hq : q ∈ m) (he : p.1 = q.1) : p = q := by
  induction m with
  | nil => cases hp
  | cons a m ih =>
    simp only [List.map_cons, List.nodup_cons] at h
    rcases List.mem_cons.1 hp with rfl | hp'
    · rcases List.mem_cons.1 hq with rfl | hq'
      · rfl
      · exact absurd (he ▸ List.mem_map_of_mem Prod.fst hq') h.1
    · rcases List.mem_cons.1 hq with rfl | hq'
      · exact absurd (he ▸ List.mem_map_of_mem Prod.fst hp') h.1
      · exact ih h.2 hp' hq'

theorem length_filter_split {α : Type} (p : α → Bool) (l : List α) :
    (l.filter p).length + (l.filter (fun a => !(p a))).length = l.length := by
  induction l with
  | nil => rfl
  | cons x xs ih =>
    by_cases hx : p x = true
    · simp [List.filter_cons, hx, ← ih]
      omega
    · have hx' : p x = false := by
        rcases bool_cases (p x) with h0 | h0
        · exact h0
        · exact absurd h0 hx
      simp [List.filter_cons, hx', ← ih]
      omega

theorem mget_filter_eq_none {α : Type} {m : AList α} {q : String × α → Bool} {k : String}
    (h : ∀ p ∈ m, p.1 = k → q p = false) : mget (m.filter q) k = none := by
  induction m with
  | nil => rfl
  | cons p m ih =>
    rw [List.filter_cons]
    by_cases hp : p.1 = k
    · rw [h p (List.mem_cons_self _ _) hp]
      simp only [Bool.false_eq_true, if_false]
      exact ih (fun p' hp' he => h p' (List.mem_cons_of_mem _ hp') he)
    · split
      · rw [show mget (p :: m.filter q) k = mget (m.filter q) k by simp [mget, hp]]
        exact ih (fun p' hp' he => h p' (List.mem_cons_of_mem _ hp') he)
      · exact ih (fun p' hp' he => h p' (List.mem_cons_of_mem _ hp') he)

theorem mget_filter_eq_of_true {α : Type} {m : AList α} {q : String × α → Bool} {k : String}
    (h : ∀ p ∈ m, p.1 = k → q p = true) : mget (m.filter q) k = mget m k := by
  induction m with
  | nil => rfl
  | cons p m ih =>
    rw [List.filter_cons]
    by_cases hp : p.1 = k
    · rw [h p (List.mem_cons_self _ _) hp]
      simp only [if_true]
      rw [show mget (p :: m.filter q) k = some p.2 by simp [mget, hp]]
      rw [show mget (p :: m) k = some p.2 by simp [mget, hp]]
    · have htail : mget (p :: m) k = mget m k := by simp [mget, hp]
      rw [htail]
      split
      · rw [show mget (p :: m.filter q) k = mget (m.filter q) k by simp [mget, hp]]
        exact ih (fun p' hp' he => h p' (List.mem_cons_of_mem _ hp') he)
      · exact ih (fun p' hp' he => h p' (List.mem_cons_of_mem _ hp') he)

theorem del_cache_filter {c : Cache} (hwf : Wf c) (k : String) :
    ((c.del k).1).cache = c.cache.filter (fun p => p.1 ≠ k) ∧
    ((c.del k).1).metadata = c.metadata.filter (fun p => p.1 ≠ k) := by
  have hmnd : (c.metadata.map Prod.fst).Nodup := by rw [hwf.2.1]; exact hwf.1
  rcases bool_cases (mhas c.cache k) with hk | hk
  · have hnone : mget c.cache k = none := by
      rw [mget_eq_none_iff]
      exact (mhas_eq_false_iff _ _).1 hk
    have hnonem : mget c.metadata k = none := by
      rw [mget_eq_none_iff, hwf.2.1]
      exact (mhas_eq_false_iff _ _).1 hk
    rw [del_not_has hk]
    constructor
    · refine (List.filter_eq_self.2 ?_).symm
      intro p hp
      simp only [ne_eq, decide_eq_true_eq]
      intro he
      exact (mget_eq_none_iff _ _).1 hnone (he ▸ List.mem_map_of_mem Prod.fst hp)
    · refine (List.filter_eq_self.2 ?_).symm
      intro p hp
      simp only [ne_eq, decide_eq_true_eq]
      intro he
      exact (mget_eq_none_iff _ _).1 hnonem (he ▸ List.mem_map_of_mem Prod.fst hp)
  · rw [del_has hk]
    exact ⟨mdel_eq_filter hwf.1 k, mdel_eq_filter hmnd k⟩

theorem filter_filter_contains {α : Type} (m : AList α) (k : String) (ks : List String) :
    (m.filter (fun p => p.1 ≠ k)).filter (fun p => !(ks.contains p.1))
      = m.filter (fun p => !((k :: ks).contains p.1)) := by
  rw [List.filter_filter]
  apply List.filter_congr
  intro p hp
  by_cases h1 : p.1 = k
  · simp [h1]
  · by_cases h2 : p.1 ∈ ks
    · simp [h1, h2, (contains_iff ks p.1).2 h2]
    · have hc : ks.contains p.1 = false := by
        rcases bool_cases (ks.contains p.1) with h0 | h0
        · exact h0
        · exact absurd ((contains_iff ks p.1).1 h0) h2
      simp [h1, h2, hc]

theorem delFold_spec : ∀ (ks : List String) (c : Cache), Wf c →
    Wf (List.foldl (fun acc k => (acc.del k).1) c ks) ∧
    (List.foldl (fun acc k => (acc.del k).1) c ks).config = c.config ∧
    (List.foldl (fun acc k => (acc.del k).1) c ks).cache
      = c.cache.filter (fun p => !(ks.contains p.1)) ∧
    (List.foldl (fun acc k => (acc.del k).1) c ks).metadata
      = c.metadata.filter (fun p => !(ks.contains p.1)) := by
  intro ks
  induction ks with
  | nil =>
    intro c hwf
    refine ⟨hwf, rfl, ?_, ?_⟩
    · exact (List.filter_eq_self.2 (fun p hp => rfl)).symm
    · exact (List.filter_eq_self.2 (fun p hp => rfl)).symm
  | cons k rest ih =>
    intro c hwf
    rw [List.foldl_cons]
    obtain ⟨w, cf, hc, hm⟩ := ih ((c.del k).1) (Wf_del hwf k)
    obtain ⟨dc, dm⟩ := del_cache_filter hwf k
    refine ⟨w, cf.trans (del_config c k), ?_, ?_⟩
    · rw [hc, dc, filter_filter_contains]
    · rw [hm, dm, filter_filter_contains]

theorem Wf_clear (c : Cache) : Wf c.clear :=
  ⟨List.nodup_nil, rfl, List.Perm.refl _, rfl⟩

theorem Wf_cleanup {c : Cache} (hwf : Wf c) (now : Int) : Wf (c.cleanup now) :=
  (delFold_spec _ c hwf).1

theorem Wf_invalidateByTag {c : Cache} (hwf : Wf c) (tag : String) :
    Wf (c.invalidateByTag tag).1 :=
  (delFold_spec _ c hwf).1

/-! ### import -/

theorem Wf_restoreHits {c : Cache} (hwf : Wf c) {key : String} {m : Meta}
    (hm : mget c.metadata key = some m) (hits : Nat) :
    Wf { c with metadata := mset c.metadata key { m with hits := hits } } := by
  refine ⟨hwf.1, ?_, hwf.2.2.1, ?_⟩
  · show (mset c.metadata key _).map Prod.fst = keys c
    rw [map_fst_mset_of_some hm]
    exact hwf.2.1
  · show c.memoryUsage = msum (mset c.metadata key _)
    rw [msum_mset_of_some hm { m with hits := hits } rfl]
    exact hwf.2.2.2

theorem Wf_importStep {acc : Cache} (hwf : Wf acc) (tstamp now : Int) (e : ExportEntry) :
    Wf (importStep tstamp now acc e) := by
  dsimp only [importStep]
  split
  · have hw' := Wf_set hwf now e.key e.value
      { ttl := some (e.metadata.expiry - (now - tstamp) - now)
        priority := some e.metadata.priority, tags := some e.metadata.tags }
    split
    · next m hm => exact Wf_restoreHits hw' hm e.metadata.hits
    · exact hw'
  · exact hwf

theorem Wf_importData (c : Cache) (now : Int) (data : ExportData) :
    Wf (c.importData now data) := by
  show Wf { data.entries.foldl (importStep data.timestamp now) c.clear with stats := data.stats }
  refine Wf_stats_update _ ?_
  have h : ∀ (es : List ExportEntry) (acc : Cache), Wf acc →
      Wf (es.foldl (importStep data.timestamp now) acc) := by
    intro es
    induction es with
    | nil => intro acc h; exact h
    | cons e es ih =>
      intro acc hacc
      rw [List.foldl_cons]
      exact ih _ (Wf_importStep hacc data.timestamp now e)
  exact h data.entries c.clear (Wf_clear c)

/-! ### The import loop in the non-evicting regime -/

theorem orDefaultInt_some_of_ne {v d : Int} (h : v ≠ 0) : orDefaultInt (some v) d = v := by
  simp [orDefaultInt, h]

theorem orDefaultInt_some_self (p : Int) : orDefaultInt (some p) 0 = p := by
  by_cases h : p = 0
  · simp [orDefaultInt, h]
  · simp [orDefaultInt, h]

theorem setEvictions_skip {c : Cache} {now : Int} {size : Nat} {key : String}
    (hmem : ¬ c.memoryUsage + (size : Int) > (c.config.maxMemory : Int))
    (hcap : ¬ c.config.maxSize ≤ c.cache.length)
    (hk : mget c.cache key = none) :
    setEvictions c now size key = c := by
  unfold setEvictions replaceOld capPressure memPressure
  rw [if_neg hmem, if_neg hcap]
  rw [if_neg (show ¬ mhas c.cache key = true from by rw [mhas, hk]; exact fun he => Bool.noConfusion he)]

theorem importStep_insert {acc : Cache} {tstamp now : Int} {e : ExportEntry}
    (hwf : Wf acc)
    (hexp : e.metadata.expiry - (now - tstamp) > now)
    (hk : mget acc.cache e.key = none)
    (hmem : ¬ acc.memoryUsage + (getObjectSize e.value : Int) > (acc.config.maxMemory : Int))
    (hcap : ¬ acc.config.maxSize ≤ acc.cache.length) :
    (importStep tstamp now acc e).cache = acc.cache ++ [(e.key, e.value)] ∧
    (importStep tstamp now acc e).metadata = acc.metadata ++ [(e.key,
      { size := getObjectSize e.value, timestamp := now
        expiry := e.metadata.expiry - (now - tstamp), hits := e.metadata.hits
        priority := e.metadata.priority, tags := e.metadata.tags, lastAccess := now })] ∧
    (importStep tstamp now acc e).memoryUsage
      = acc.memoryUsage + (getObjectSize e.value : Int) ∧
    (importStep tstamp now acc e).config = acc.config ∧
    Wf (importStep tstamp now acc e) := by
  have hwfstep := Wf_importStep hwf tstamp now e
  have hkmeta : mget acc.metadata e.key = none := by
    rw [mget_eq_none_iff, hwf.2.1]
    exact (mget_eq_none_iff _ _).1 hk
  have hstep : importStep tstamp now acc e
      = (let acc' := acc.set now e.key e.value
           { ttl := some (e.metadata.expiry - (now - tstamp) - now)
             priority := some e.metadata.priority, tags := some e.metadata.tags }
         match mget acc'.metadata e.key with
         | some m =>
           { acc' with metadata := mset acc'.metadata e.key { m with hits := e.metadata.hits } }
         | none => acc') := by
    dsimp only [importStep]
    rw [if_pos hexp]
  have hsetsk : setEvictions acc now (getObjectSize e.value) e.key = acc :=
    setEvictions_skip hmem hcap hk
  have httl : orDefaultInt (some (e.metadata.expiry - (now - tstamp) - now))
      acc.config.defaultTTL = e.metadata.expiry - (now - tstamp) - now :=
    orDefaultInt_some_of_ne (by omega)
  have hset : acc.set now e.key e.value
      { ttl := some (e.metadata.expiry - (now - tstamp) - now)
        priority := some e.metadata.priority, tags := some e.metadata.tags }
      = acc.insertEntry now e.key e.value (e.metadata.expiry - (now - tstamp) - now)
          e.metadata.priority e.metadata.tags := by
    rw [set_eq, hsetsk, httl, orDefaultInt_some_self]
    rfl
  obtain ⟨e1, e2, e3, e4, e5, w6⟩ := insertEntry_spec hwf hk now e.value
    (e.metadata.expiry - (now - tstamp) - now) e.metadata.priority e.metadata.tags
  have hexpiry : now + (e.metadata.expiry - (now - tstamp) - now)
      = e.metadata.expiry - (now - tstamp) := by ring
  rw [hexpiry] at e2
  have hmg : mget (acc.insertEntry now e.key e.value
      (e.metadata.expiry - (now - tstamp) - now) e.metadata.priority e.metadata.tags).metadata
      e.key
      = some { size := getObjectSize e.value, timestamp := now
               expiry := e.metadata.expiry - (now - tstamp), hits := 0
               priority := e.metadata.priority, tags := e.metadata.tags
               lastAccess := now } := by
    rw [e2, mget_append_of_none hkmeta]
    simp [mget]
  have hms : mset (acc.insertEntry now e.key e.value
        (e.metadata.expiry - (now - tstamp) - now) e.metadata.priority e.metadata.tags).metadata
      e.key
      { size := getObjectSize e.value, timestamp := now
        expiry := e.metadata.expiry - (now - tstamp), hits := e.metadata.hits
        priority := e.metadata.priority, tags := e.metadata.tags, lastAccess := now }
      = acc.metadata ++ [(e.key,
        { size := getObjectSize e.value, timestamp := now
          expiry := e.metadata.expiry - (now - tstamp), hits := e.metadata.hits
          priority := e.metadata.priority, tags := e.metadata.tags, lastAccess := now })] := by
    rw [e2, mset_append_of_none hkmeta]
  have hres : importStep tstamp now acc e
      = { (acc.insertEntry now e.key e.value (e.metadata.expiry - (now - tstamp) - now)
            e.metadata.priority e.metadata.tags) with
          metadata := acc.metadata ++ [(e.key,
            { size := getObjectSize e.value, timestamp := now
              expiry := e.metadata.expiry - (now - tstamp), hits := e.metadata.hits
              priority := e.metadata.priority, tags := e.metadata.tags
              lastAccess := now })] } := by
    rw [hstep]
    simp only [hset, hmg]
    congr 1
  rw [hres] at hwfstep ⊢
  exact ⟨e1, rfl, e4, e5, hwfstep⟩

theorem importFold_spec (tstamp now : Int) :
    ∀ (es : List ExportEntry) (acc : Cache),
      Wf acc →
      (∀ e ∈ es, e.metadata.expiry - (now - tstamp) > now) →
      ((acc.cache.map Prod.fst) ++ es.map ExportEntry.key).Nodup →
      acc.cache.length + es.length ≤ acc.config.maxSize →
      acc.memoryUsage + (es.map (fun e => (getObjectSize e.value : Int))).sum
          ≤ (acc.config.maxMemory : Int) →
      (es.foldl (importStep tstamp now) acc).cache
          = acc.cache ++ es.map (fun e => (e.key, e.value)) ∧
      (es.foldl (importStep tstamp now) acc).metadata
          = acc.metadata ++ es.map (fun e =>
              ((e.key, { size := getObjectSize e.value, timestamp := now
                         expiry := e.metadata.expiry - (now - tstamp)
                         hits := e.metadata.hits, priority := e.metadata.priority
                         tags := e.metadata.tags, lastAccess := now }) : String × Meta)) := by
  intro es
  induction es with
  | nil =>
    intro acc hwf hexp hnd hlen hmu
    simp
  | cons e es ih =>
    intro acc hwf hexp hnd hlen hmu
    have hrest_nonneg : (0:Int) ≤ (es.map (fun e => (getObjectSize e.value : Int))).sum := by
      apply List.sum_nonneg
      intro x hx
      obtain ⟨e', _, he'⟩ := List.mem_map.1 hx
      rw [← he']
      exact Int.ofNat_nonneg _
    have hmem : ¬ acc.memoryUsage + (getObjectSize e.value : Int)
        > (acc.config.maxMemory : Int) := by
      simp only [List.map_cons, List.sum_cons] at hmu
      omega
    have hcap : ¬ acc.config.maxSize ≤ acc.cache.length := by
      simp only [List.length_cons] at hlen
      omega
    have hnd' : (acc.cache.map Prod.fst).Nodup ∧ (e.key :: es.map ExportEntry.key).Nodup ∧
        (acc.cache.map Prod.fst).Disjoint (e.key :: es.map ExportEntry.key) := by
      rw [← List.nodup_append]
      simpa using hnd
    have hkey : mget acc.cache e.key = none := by
      rw [mget_eq_none_iff]
      intro hk
      exact hnd'.2.2 hk (List.mem_cons_self _ _)
    obtain ⟨s1, s2, s3, s4, s5⟩ := importStep_insert hwf
      (hexp e (List.mem_cons_self _ _)) hkey hmem hcap
    rw [List.foldl_cons]
    have hihnd : ((importStep tstamp now acc e).cache.map Prod.fst
        ++ es.map ExportEntry.key).Nodup := by
      rw [s1]
      simp only [List.map_append, List.map_cons, List.map_nil, List.append_assoc]
      simpa using hnd
    have hihlen : (importStep tstamp now acc e).cache.length + es.length
        ≤ (importStep tstamp now acc e).config.maxSize := by
      rw [s1, s4]
      simp only [List.length_append, List.length_cons, List.length_nil]
      simp only [List.length_cons] at hlen
      omega
    have hihmu : (importStep tstamp now acc e).memoryUsage
        + (es.map (fun e => (getObjectSize e.value : Int))).sum
        ≤ ((importStep tstamp now acc e).config.maxMemory : Int) := by
      rw [s3, s4]
      simp only [List.map_cons, List.sum_cons] at hmu
      omega
    obtain ⟨g1, g2⟩ := ih (importStep tstamp now acc e) s5
      (fun e' he' => hexp e' (List.mem_cons_of_mem _ he')) hihnd hihlen hihmu
    constructor
    · rw [g1, s1]
      simp [List.append_assoc]
    · rw [g2, s2]
      simp [List.append_assoc]

/-- With well-formed bookkeeping, the per-value sizes summed over the value
map agree with `msum` over the metadata map. -/
theorem sum_sizes_eq_msum :
    ∀ (cs : AList JSValue) (ms : AList Meta),
      ms.map Prod.fst = cs.map Prod.fst → (cs.map Prod.fst).Nodup →
      (∀ p ∈ cs, ∃ m, mget ms p.1 = some m ∧ m.size = getObjectSize p.2) →
      (cs.map (fun p => (getObjectSize p.2 : Int))).sum = msum ms := by
  intro cs
  induction cs with
  | nil =>
    intro ms hfst hnd hsz
    have : ms = [] := by
      cases hms : ms with
      | nil => rfl
      | cons q ms' =>
        rw [hms] at hfst
        simp at hfst
    rw [this]
    rfl
  | cons p cs ih =>
    intro ms hfst hnd hsz
    cases hms : ms with
    | nil =>
      rw [hms] at hfst
      simp at hfst
    | cons q ms' =>
      rw [hms] at hfst
      simp only [List.map_cons, List.cons.injEq] at hfst
      simp only [List.map_cons, List.nodup_cons] at hnd
      obtain ⟨m, hm, hmsz⟩ := hsz p (List.mem_cons_self _ _)
      rw [hms] at hm
      rw [show mget (q :: ms') p.1 = some q.2 from by simp [mget, hfst.1]] at hm
      cases hm
      have htail : ∀ p' ∈ cs, ∃ m, mget ms' p'.1 = some m ∧ m.size = getObjectSize p'.2 := by
        intro p' hp'
        obtain ⟨m', hm', hms'⟩ := hsz p' (List.mem_cons_of_mem _ hp')
        rw [hms] at hm'
        have hne : ¬ q.1 = p'.1 := by
          rw [hfst.1]
          intro he
          exact hnd.1 (he ▸ List.mem_map_of_mem Prod.fst hp')
        rw [show mget (q :: ms') p'.1 = mget ms' p'.1 from by simp [mget, hne]] at hm'
        exact ⟨m', hm', hms'⟩
      have := ih ms' hfst.2 hnd.2 htail
      simp only [List.map_cons, List.sum_cons, msum] at this ⊢
      omega

/-! ### getByTag -/

/-- The entries of a metadata list that carry the given tag. -/
def taggedOf (tag : String) (ps : List (String × Meta)) : List (String × Meta) :=
  ps.filter (fun p => p.2.tags.contains tag)

/-- The tagged entries whose expiry has not passed at time `now`. -/
def liveOf (tag : String) (now : Int) (ps : List (String × Meta)) : List (String × Meta) :=
  (taggedOf tag ps).filter (fun p => !decide (now > p.2.expiry))

/-- The tagged entries whose expiry has passed at time `now`. -/
def expiredOf (tag : String) (now : Int) (ps : List (String × Meta)) : List (String × Meta) :=
  (taggedOf tag ps).filter (fun p => decide (now > p.2.expiry))

/-- The stored value under a key, with `null` for an absent key. -/
def valueAt (c : Cache) (k : String) : JSValue := (mget c.cache k).getD JSValue.vNull

theorem taggedOf_subset (tag : String) (ps : List (String × Meta)) : taggedOf tag ps ⊆ ps :=
  fun _ hx => List.mem_of_mem_filter hx

theorem liveOf_subset (tag : String) (now : Int) (ps : List (String × Meta)) :
    liveOf tag now ps ⊆ ps :=
  fun _ hx => taggedOf_subset tag ps (List.mem_of_mem_filter hx)

theorem expiredOf_subset (tag : String) (now : Int) (ps : List (String × Meta)) :
    expiredOf tag now ps ⊆ ps :=
  fun _ hx => taggedOf_subset tag ps (List.mem_of_mem_filter hx)

theorem taggedOf_cons_pos {tag : String} {p : String × Meta} (ps : List (String × Meta))
    (h : p.2.tags.contains tag = true) : taggedOf tag (p :: ps) = p :: taggedOf tag ps := by
  show List.filter _ (p :: ps) = p :: List.filter _ ps
  rw [List.filter_cons, if_pos h]

theorem taggedOf_cons_neg {tag : String} {p : String × Meta} (ps : List (String × Meta))
    (h : p.2.tags.contains tag = false) : taggedOf tag (p :: ps) = taggedOf tag ps := by
  show List.filter _ (p :: ps) = List.filter _ ps
  rw [List.filter_cons, if_neg (by rw [h]; exact fun he => Bool.noConfusion he)]

theorem liveOf_cons_live {tag : String} {now : Int} {p : String × Meta}
    (ps : List (String × Meta)) (ht : p.2.tags.contains tag = true)
    (he : ¬ now > p.2.expiry) :
    liveOf tag now (p :: ps) = p :: liveOf tag now ps ∧
    expiredOf tag now (p :: ps) = expiredOf tag now ps := by
  have hd : (!decide (now > p.2.expiry)) = true := by rw [decide_eq_false he]; rfl
  have hd' : ¬ (decide (now > p.2.expiry) = true) := fun hh => he (of_decide_eq_true hh)
  constructor
  · rw [liveOf, taggedOf_cons_pos ps ht, liveOf, List.filter_cons, if_pos hd]
  · rw [expiredOf, taggedOf_cons_pos ps ht, expiredOf, List.filter_cons, if_neg hd']

theorem liveOf_cons_expired {tag : String} {now : Int} {p : String × Meta}
    (ps : List (String × Meta)) (ht : p.2.tags.contains tag = true)
    (he : now > p.2.expiry) :
    liveOf tag now (p :: ps) = liveOf tag now ps ∧
    expiredOf tag now (p :: ps) = p :: expiredOf tag now ps := by
  have hd : decide (now > p.2.expiry) = true := decide_eq_true he
  have hd' : ¬ ((!decide (now > p.2.expiry)) = true) := by rw [hd]; exact fun hh => Bool.noConfusion hh
  constructor
  · rw [liveOf, taggedOf_cons_pos ps ht, liveOf, List.filter_cons, if_neg hd']
  · rw [expiredOf, taggedOf_cons_pos ps ht, expiredOf, List.filter_cons, if_pos hd]

theorem liveOf_cons_untagged {tag : String} {now : Int} {p : String × Meta}
    (ps : List (String × Meta)) (ht : p.2.tags.contains tag = false) :
    liveOf tag now (p :: ps) = liveOf tag now ps ∧
    expiredOf tag now (p :: ps) = expiredOf tag now ps := by
  rw [liveOf, expiredOf, taggedOf_cons_neg ps ht, liveOf, expiredOf]
  exact ⟨rfl, rfl⟩

theorem mget_del_meta_self {c : Cache} (hwf : Wf c) (k : String) :
    mget ((c.del k).1).metadata k = none := by
  rcases bool_cases (mhas c.cache k) with hk | hk
  · rw [del_not_has hk]
    rw [mget_eq_none_iff, hwf.2.1]
    exact (mhas_eq_false_iff _ _).1 hk
  · rw [metadata_del_of_has hk]
    exact mget_mdel_self_nodup (by rw [hwf.2.1]; exact hwf.1) k

theorem accessOrder_nodup {c : Cache} (hwf : Wf c) : c.accessOrder.Nodup :=
  (hwf.2.2.1.nodup_iff).2 hwf.1

theorem contains_false_of_not_mem {l : List String} {a : String} (h : a ∉ l) :
    l.contains a = false := by
  rcases bool_cases (l.contains a) with h0 | h0
  · exact h0
  · exact absurd ((contains_iff l a).1 h0) h

theorem erase_filter_step {l : List String} (hnd : l.Nodup) (k : String) (ks : List String) :
    (l.erase k).filter (fun x => !(ks.contains x))
      = l.filter (fun x => !((k :: ks).contains x)) := by
  rw [hnd.erase_eq_filter k, List.filter_filter]
  apply List.filter_congr
  intro x hx
  by_cases h1 : x = k
  · simp [h1]
  · by_cases h2 : x ∈ ks
    · simp [h1, (contains_iff ks x).2 h2, Ne.symm h1]
    · simp [h1, contains_false_of_not_mem h2, Ne.symm h1]

theorem isNull_vNull : JSValue.vNull.isNull = true := rfl

theorem map_fst_taggedOf_subset (tag : String) (ps : List (String × Meta)) :
    (taggedOf tag ps).map Prod.fst ⊆ ps.map Prod.fst := by
  intro x hx
  obtain ⟨q, hq, he⟩ := List.mem_map.1 hx
  exact he ▸ List.mem_map_of_mem Prod.fst (taggedOf_subset tag ps hq)

theorem getByTagGo_spec (now : Int) (tag : String) :
    ∀ (ps : List (String × Meta)) (c : Cache) (res0 : List (String × JSValue)),
      Wf c →
      (ps.map Prod.fst).Nodup →
      (∀ p ∈ ps, mget c.metadata p.1 = some p.2) →
      (getByTagGo now tag ps (c, res0)).2
          = res0 ++ ((liveOf tag now ps).filter
              (fun p => !(valueAt c p.1).isNull)).map (fun p => (p.1, valueAt c p.1)) ∧
      (∀ p ∈ expiredOf tag now ps,
        mget (getByTagGo now tag ps (c, res0)).1.cache p.1 = none ∧
        mget (getByTagGo now tag ps (c, res0)).1.metadata p.1 = none) ∧
      (∀ p ∈ liveOf tag now ps,
        mget (getByTagGo now tag ps (c, res0)).1.metadata p.1
          = some { p.2 with hits := p.2.hits + 1, lastAccess := now } ∧
        mget (getByTagGo now tag ps (c, res0)).1.cache p.1 = mget c.cache p.1) ∧
      (∀ k, k ∉ (taggedOf tag ps).map Prod.fst →
        mget (getByTagGo now tag ps (c, res0)).1.cache k = mget c.cache k ∧
        mget (getByTagGo now tag ps (c, res0)).1.metadata k = mget c.metadata k) ∧
      (getByTagGo now tag ps (c, res0)).1.stats.hits
          = c.stats.hits + (liveOf tag now ps).length ∧
      (getByTagGo now tag ps (c, res0)).1.stats.misses
          = c.stats.misses + (expiredOf tag now ps).length ∧
      (getByTagGo now tag ps (c, res0)).1.stats.deletes
          = c.stats.deletes + (expiredOf tag now ps).length ∧
      (getByTagGo now tag ps (c, res0)).1.accessOrder
          = c.accessOrder.filter (fun x => !(((taggedOf tag ps).map Prod.fst).contains x))
              ++ (liveOf tag now ps).map Prod.fst ∧
      Wf (getByTagGo now tag ps (c, res0)).1 := by
  intro ps
  induction ps with
  | nil =>
    intro c res0 hwf hnd hmg
    refine ⟨by simp [getByTagGo, liveOf, taggedOf], ?_, ?_, fun k _ => ⟨rfl, rfl⟩,
      by simp [getByTagGo, liveOf, taggedOf], by simp [getByTagGo, expiredOf, taggedOf],
      by simp [getByTagGo, expiredOf, taggedOf], ?_, hwf⟩
    · intro p hp
      exact absurd hp (List.not_mem_nil p)
    · intro p hp
      exact absurd hp (List.not_mem_nil p)
    · show c.accessOrder = c.accessOrder.filter _ ++ []
      rw [List.append_nil]
      exact (List.filter_eq_self.2 (fun x hx => rfl)).symm
  | cons p ps ih =>
    intro c res0 hwf hnd hmg
    simp only [List.map_cons, List.nodup_cons] at hnd
    have hgo : getByTagGo now tag (p :: ps) (c, res0)
        = (if p.2.tags.contains tag then
             (let r := c.get now p.1
              if r.2.isNull then getByTagGo now tag ps (r.1, res0)
              else getByTagGo now tag ps (r.1, res0 ++ [(p.1, r.2)]))
           else getByTagGo now tag ps (c, res0)) := rfl
    have hpnotin : p.1 ∉ (taggedOf tag ps).map Prod.fst :=
      fun hx => hnd.1 (map_fst_taggedOf_subset tag ps hx)
    have hqne : ∀ q ∈ ps, q.1 ≠ p.1 := by
      intro q hq he
      exact hnd.1 (he ▸ List.mem_map_of_mem Prod.fst hq)
    rcases bool_cases (p.2.tags.contains tag) with htag | htag
    · -- untagged: nothing happens for this entry
      obtain ⟨hl, he⟩ := @liveOf_cons_untagged tag now p ps htag
      have htg := @taggedOf_cons_neg tag p ps htag
      rw [hgo, if_neg (by rw [htag]; exact fun hh => Bool.noConfusion hh)]
      obtain ⟨g1, g2, g3, g4, g5, g6, g7, g8, g9⟩ :=
        ih c res0 hwf hnd.2 (fun q hq => hmg q (List.mem_cons_of_mem _ hq))
      rw [hl, he, htg]
      exact ⟨g1, g2, g3, g4, g5, g6, g7, g8, g9⟩
    · -- tagged: get is invoked on this key
      have hm : mget c.metadata p.1 = some p.2 := hmg p (List.mem_cons_self _ _)
      have hpk : p.1 ∈ keys c := by
        rw [← hwf.2.1]
        exact List.mem_map_of_mem Prod.fst (mem_of_mget_eq_some hm)
      have hk : mhas c.cache p.1 = true := (mhas_eq_true_iff _ _).2 hpk
      obtain ⟨v, hv⟩ := exists_mget_of_mem hpk
      have htgk : (taggedOf tag (p :: ps)).map Prod.fst
          = p.1 :: (taggedOf tag ps).map Prod.fst := by
        rw [taggedOf_cons_pos ps htag, List.map_cons]
      by_cases hexp : now > p.2.expiry
      · -- expired: get deletes the entry and reports a miss
        obtain ⟨hl, he⟩ := @liveOf_cons_expired tag now p ps htag hexp
        rw [hgo, if_pos htag]
        simp only [get_miss_expired hm hk hexp, isNull_vNull, if_true]
        set cE : Cache :=
          { (c.del p.1).1 with stats :=
            { (c.del p.1).1.stats with misses := (c.del p.1).1.stats.misses + 1 } } with hcE
        have hwfE : Wf cE := Wf_stats_update _ (Wf_del hwf p.1)
        have hmgE : ∀ q ∈ ps, mget cE.metadata q.1 = some q.2 := by
          intro q hq
          show mget ((c.del p.1).1).metadata q.1 = some q.2
          rw [mget_del_meta_ne c (hqne q hq)]
          exact hmg q (List.mem_cons_of_mem _ hq)
        have hEc : ∀ k, k ≠ p.1 → mget cE.cache k = mget c.cache k :=
          fun k hkne => mget_del_cache_ne c hkne
        have hEm : ∀ k, k ≠ p.1 → mget cE.metadata k = mget c.metadata k :=
          fun k hkne => mget_del_meta_ne c hkne
        have hEcp : mget cE.cache p.1 = none := mget_del_cache_self hwf p.1
        have hEmp : mget cE.metadata p.1 = none := mget_del_meta_self hwf p.1
        have hstE : cE.stats.hits = c.stats.hits ∧ cE.stats.misses = c.stats.misses + 1 ∧
            cE.stats.deletes = c.stats.deletes + 1 := by
          rw [hcE, del_has hk]
          exact ⟨rfl, rfl, rfl⟩
        have haoE : cE.accessOrder = c.accessOrder.erase p.1 := by
          rw [hcE, del_has hk]
        obtain ⟨g1, g2, g3, g4, g5, g6, g7, g8, g9⟩ := ih cE res0 hwfE hnd.2 hmgE
        have hvalsE : ((liveOf tag now ps).filter
              (fun q => !(valueAt cE q.1).isNull)).map (fun q => (q.1, valueAt cE q.1))
            = ((liveOf tag now ps).filter
              (fun q => !(valueAt c q.1).isNull)).map (fun q => (q.1, valueAt c q.1)) := by
          have hvq : ∀ q ∈ liveOf tag now ps, valueAt cE q.1 = valueAt c q.1 := by
            intro q hq
            show (mget cE.cache q.1).getD JSValue.vNull = (mget c.cache q.1).getD JSValue.vNull
            rw [hEc q.1 (hqne q (liveOf_subset tag now ps hq))]
          rw [List.filter_congr (fun q hq => by rw [hvq q hq])]
          apply List.map_congr_left
          intro q hq
          rw [hvq q (List.mem_of_mem_filter hq)]
        refine ⟨?_, ?_, ?_, ?_, ?_, ?_, ?_, ?_, g9⟩
        · rw [g1, hl, hvalsE]
        · intro q hq
          rw [he] at hq
          rcases List.mem_cons.1 hq with rfl | hq'
          · obtain ⟨u1, u2⟩ := g4 q.1 hpnotin
            rw [u1, u2]
            exact ⟨hEcp, hEmp⟩
          · exact g2 q hq'
        · intro q hq
          rw [hl] at hq
          obtain ⟨u1, u2⟩ := g3 q hq
          refine ⟨u1, ?_⟩
          rw [u2, hEc q.1 (hqne q (liveOf_subset tag now ps hq))]
        · intro k hknotin
          rw [htgk] at hknotin
          have hkne : k ≠ p.1 := fun he' => hknotin (he' ▸ List.mem_cons_self _ _)
          have hknotin' : k ∉ (taggedOf tag ps).map Prod.fst :=
            fun hx => hknotin (List.mem_cons_of_mem _ hx)
          obtain ⟨u1, u2⟩ := g4 k hknotin'
          rw [u1, u2, hEc k hkne, hEm k hkne]
          exact ⟨rfl, rfl⟩
        · rw [g5, hstE.1, hl]
        · rw [g6, hstE.2.1, he]
          simp only [List.length_cons]
          omega
        · rw [g7, hstE.2.2, he]
          simp only [List.length_cons]
          omega
        · rw [g8, haoE, hl, htgk, erase_filter_step (accessOrder_nodup hwf)]
      · -- live: get reports a hit and bumps the entry
        obtain ⟨hl, he⟩ := @liveOf_cons_live tag now p ps htag hexp
        set cH : Cache :=
          { c with
              metadata := mset c.metadata p.1 { p.2 with hits := p.2.hits + 1, lastAccess := now }
              accessOrder := c.accessOrder.erase p.1 ++ [p.1]
              stats := { c.stats with hits := c.stats.hits + 1 } } with hcH
        have hgethit : c.get now p.1 = (cH, v) := by
          rw [hcH]
          exact get_hit hm hv hexp
        have hwfH : Wf cH := by
          have hwg := Wf_get hwf now p.1
          rw [hgethit] at hwg
          exact hwg
        have hmgH : ∀ q ∈ ps, mget cH.metadata q.1 = some q.2 := by
          intro q hq
          rw [hcH]
          show mget (mset c.metadata p.1 _) q.1 = some q.2
          rw [mget_mset_ne _ (hqne q hq)]
          exact hmg q (List.mem_cons_of_mem _ hq)
        have hHc : cH.cache = c.cache := by rw [hcH]
        have hvp : valueAt c p.1 = v := by
          show (mget c.cache p.1).getD JSValue.vNull = v
          rw [hv]
          rfl
        have hHmp : mget cH.metadata p.1
            = some { p.2 with hits := p.2.hits + 1, lastAccess := now } := by
          rw [hcH]
          show mget (mset c.metadata p.1 _) p.1 = _
          rw [mget_mset_self]
        have hHm : ∀ k, k ≠ p.1 → mget cH.metadata k = mget c.metadata k := by
          intro k hkne
          rw [hcH]
          show mget (mset c.metadata p.1 _) k = mget c.metadata k
          rw [mget_mset_ne _ hkne]
        have hstH : cH.stats.hits = c.stats.hits + 1 ∧ cH.stats.misses = c.stats.misses ∧
            cH.stats.deletes = c.stats.deletes := by
          rw [hcH]
          exact ⟨rfl, rfl, rfl⟩
        have haoH : cH.accessOrder = c.accessOrder.erase p.1 ++ [p.1] := by rw [hcH]
        have hvalsH : ((liveOf tag now ps).filter
              (fun q => !(valueAt cH q.1).isNull)).map (fun q => (q.1, valueAt cH q.1))
            = ((liveOf tag now ps).filter
              (fun q => !(valueAt c q.1).isNull)).map (fun q => (q.1, valueAt c q.1)) := by
          have hvq : ∀ q ∈ liveOf tag now ps, valueAt cH q.1 = valueAt c q.1 := by
            intro q hq
            show (mget cH.cache q.1).getD JSValue.vNull = (mget c.cache q.1).getD JSValue.vNull
            rw [hHc]
          rw [List.filter_congr (fun q hq => by rw [hvq q hq])]
          apply List.map_congr_left
          intro q hq
          rw [hvq q (List.mem_of_mem_filter hq)]
        have haofinal : cH.accessOrder.filter
              (fun x => !(((taggedOf tag ps).map Prod.fst).contains x))
              ++ (liveOf tag now ps).map Prod.fst
            = c.accessOrder.filter
                (fun x => !(((taggedOf tag (p :: ps)).map Prod.fst).contains x))
              ++ (liveOf tag now (p :: ps)).map Prod.fst := by
          rw [haoH, List.filter_append, htgk, hl, List.map_cons]
          rw [erase_filter_step (accessOrder_nodup hwf)]
          rw [show List.filter (fun x => !(((taggedOf tag ps).map Prod.fst).contains x)) [p.1]
              = [p.1] from by
            rw [show ([p.1] : List String) = p.1 :: [] from rfl, List.filter_cons]
            rw [if_pos (by rw [contains_false_of_not_mem hpnotin]; rfl)]
            rfl]
          rw [List.append_assoc]
          rfl
        rcases bool_cases v.isNull with hnull | hnull
        · -- the stored value is not null: the pair is returned
          have hstep : getByTagGo now tag (p :: ps) (c, res0)
              = getByTagGo now tag ps (cH, res0 ++ [(p.1, v)]) := by
            rw [hgo, if_pos htag]
            rw [show c.get now p.1 = (cH, v) from hgethit]
            show (if v.isNull = true then getByTagGo now tag ps (cH, res0)
                  else getByTagGo now tag ps (cH, res0 ++ [(p.1, v)]))
                = getByTagGo now tag ps (cH, res0 ++ [(p.1, v)])
            rw [if_neg (by rw [hnull]; exact fun hh => Bool.noConfusion hh)]
          rw [hstep]
          obtain ⟨g1, g2, g3, g4, g5, g6, g7, g8, g9⟩ :=
            ih cH (res0 ++ [(p.1, v)]) hwfH hnd.2 hmgH
          refine ⟨?_, ?_, ?_, ?_, ?_, ?_, ?_, ?_, g9⟩
          · rw [g1, hvalsH, hl]
            rw [show ((p :: liveOf tag now ps).filter
                  (fun q => !(valueAt c q.1).isNull)).map (fun q => (q.1, valueAt c q.1))
                = (p.1, v) :: ((liveOf tag now ps).filter
                  (fun q => !(valueAt c q.1).isNull)).map (fun q => (q.1, valueAt c q.1)) from by
              rw [List.filter_cons]
              rw [if_pos (by rw [hvp, hnull]; rfl)]
              rw [List.map_cons, hvp]]
            rw [List.append_assoc]
            rfl
          · intro q hq
            rw [he] at hq
            exact g2 q hq
          · intro q hq
            rw [hl] at hq
            rcases List.mem_cons.1 hq with rfl | hq'
            · obtain ⟨u1, u2⟩ := g4 q.1 hpnotin
              rw [u1, u2, hHmp]
              refine ⟨rfl, ?_⟩
              rw [hHc]
            · obtain ⟨u1, u2⟩ := g3 q hq'
              refine ⟨u1, ?_⟩
              rw [u2, hHc]
          · intro k hknotin
            rw [htgk] at hknotin
            have hkne : k ≠ p.1 := fun he' => hknotin (he' ▸ List.mem_cons_self _ _)
            have hknotin' : k ∉ (taggedOf tag ps).map Prod.fst :=
              fun hx => hknotin (List.mem_cons_of_mem _ hx)
            obtain ⟨u1, u2⟩ := g4 k hknotin'
            rw [u1, u2, hHc, hHm k hkne]
            exact ⟨rfl, rfl⟩
          · rw [g5, hstH.1, hl]
            simp only [List.length_cons]
            omega
          · rw [g6, hstH.2.1, he]
          · rw [g7, hstH.2.2, he]
          · rw [g8, haofinal]
        · -- the stored value is null: counted as a hit but not returned
          have hstep : getByTagGo now tag (p :: ps) (c, res0)
              = getByTagGo now tag ps (cH, res0) := by
            rw [hgo, if_pos htag]
            rw [show c.get now p.1 = (cH, v) from hgethit]
            show (if v.isNull = true then getByTagGo now tag ps (cH, res0)
                  else getByTagGo now tag ps (cH, res0 ++ [(p.1, v)]))
                = getByTagGo now tag ps (cH, res0)
            rw [if_pos hnull]
          rw [hstep]
          obtain ⟨g1, g2, g3, g4, g5, g6, g7, g8, g9⟩ := ih cH res0 hwfH hnd.2 hmgH
          refine ⟨?_, ?_, ?_, ?_, ?_, ?_, ?_, ?_, g9⟩
          · rw [g1, hvalsH, hl]
            rw [show ((p :: liveOf tag now ps).filter
                  (fun q => !(valueAt c q.1).isNull)).map (fun q => (q.1, valueAt c q.1))
                = ((liveOf tag now ps).filter
                  (fun q => !(valueAt c q.1).isNull)).map (fun q => (q.1, valueAt c q.1)) from by
              rw [List.filter_cons]
              rw [if_neg (by rw [hvp, hnull]; exact fun hh => Bool.noConfusion hh)]]
          · intro q hq
            rw [he] at hq
            exact g2 q hq
          · intro q hq
            rw [hl] at hq
            rcases List.mem_cons.1 hq with rfl | hq'
            · obtain ⟨u1, u2⟩ := g4 q.1 hpnotin
              rw [u1, u2, hHmp]
              refine ⟨rfl, ?_⟩
              rw [hHc]
            · obtain ⟨u1, u2⟩ := g3 q hq'
              refine ⟨u1, ?_⟩
              rw [u2, hHc]
          · intro k hknotin
            rw [htgk] at hknotin
            have hkne : k ≠ p.1 := fun he' => hknotin (he' ▸ List.mem_cons_self _ _)
            have hknotin' : k ∉ (taggedOf tag ps).map Prod.fst :=
              fun hx => hknotin (List.mem_cons_of_mem _ hx)
            obtain ⟨u1, u2⟩ := g4 k hknotin'
            rw [u1, u2, hHc, hHm k hkne]
            exact ⟨rfl, rfl⟩
          · rw [g5, hstH.1, hl]
            simp only [List.length_cons]
            omega
          · rw [g6, hstH.2.1, he]
          · rw [g7, hstH.2.2, he]
          · rw [g8, haofinal]

/-! ### Invariants along sequences of set calls -/

theorem Wf_mkCache (opts : CacheOptions) : Wf (mkCache opts) :=
  ⟨List.nodup_nil, rfl, List.Perm.refl _, rfl⟩

theorem mkCache_maxSize_pos (opts : CacheOptions) : 1 ≤ (mkCache opts).config.maxSize := by
  show 1 ≤ orDefaultNat opts.maxSize 1000
  rcases opts.maxSize with _ | v
  · show 1 ≤ 1000
    omega
  · show 1 ≤ (if v = 0 then 1000 else v)
    split
    · omega
    · omega

theorem applySets_capacity : ∀ (cs : List SetCall) (c : Cache),
    Wf c → 1 ≤ c.config.maxSize → (∀ x ∈ keys c, x ≠ "") → (∀ a ∈ cs, a.key ≠ "") →
    c.cache.length ≤ c.config.maxSize →
    Wf (applySets c cs) ∧ (applySets c cs).config = c.config ∧
    (∀ x ∈ keys (applySets c cs), x ≠ "") ∧
    (applySets c cs).cache.length ≤ c.config.maxSize := by
  intro cs
  induction cs with
  | nil =>
    intro c h1 _ h3 _ h5
    exact ⟨h1, rfl, h3, h5⟩
  | cons a cs ih =>
    intro c hwf hmax hkeys hcallkeys hlen
    rw [show applySets c (a :: cs)
        = applySets (c.set a.now a.key a.value a.options) cs from rfl]
    have hwf' := Wf_set hwf a.now a.key a.value a.options
    have hcfg' := set_config hwf a.now a.key a.value a.options
    have hkeys' : ∀ x ∈ keys (c.set a.now a.key a.value a.options), x ≠ "" := by
      intro x hx
      rcases keys_set_mem hwf a.now a.key a.value a.options x hx with hx' | hx'
      · exact hkeys x hx'
      · exact hx' ▸ hcallkeys a (List.mem_cons_self _ _)
    have hlen' := set_capacity hwf hmax hkeys hlen a.now a.key a.value a.options
    obtain ⟨g1, g2, g3, g4⟩ := ih (c.set a.now a.key a.value a.options) hwf'
      (by rw [hcfg']; exact hmax) hkeys'
      (fun b hb => hcallkeys b (List.mem_cons_of_mem _ hb))
      (by rw [hcfg']; exact hlen')
    refine ⟨g1, g2.trans hcfg', g3, ?_⟩
    rw [hcfg'] at g4
    exact g4

theorem applySets_memory : ∀ (cs : List SetCall) (c : Cache),
    Wf c →
    (∀ a ∈ cs, (getObjectSize a.value : Int) < (c.config.maxMemory : Int)) →
    c.memoryUsage ≤ (c.config.maxMemory : Int) →
    Wf (applySets c cs) ∧ (applySets c cs).config = c.config ∧
    (applySets c cs).memoryUsage ≤ (c.config.maxMemory : Int) := by
  intro cs
  induction cs with
  | nil =>
    intro c h1 _ h3
    exact ⟨h1, rfl, h3⟩
  | cons a cs ih =>
    intro c hwf hsz hmu
    rw [show applySets c (a :: cs)
        = applySets (c.set a.now a.key a.value a.options) cs from rfl]
    have hwf' := Wf_set hwf a.now a.key a.value a.options
    have hcfg' := set_config hwf a.now a.key a.value a.options
    have hmu' := set_memory hwf hmu (hsz a (List.mem_cons_self _ _)) a.now a.key a.options
    obtain ⟨g1, g2, g3⟩ := ih (c.set a.now a.key a.value a.options) hwf'
      (fun b hb => by rw [hcfg']; exact hsz b (List.mem_cons_of_mem _ hb))
      (by rw [hcfg']; exact hmu')
    refine ⟨g1, g2.trans hcfg', ?_⟩
    rw [hcfg'] at g3
    exact g3

/-! ### The claims -/

/-- C1 (counterexample to the claim as stated): with `maxEntries = 1`, a `set`
of the empty-string key followed by a `set` of a second key leaves two entries
in the cache, because `evictLRU` guards the eviction with JavaScript
truthiness (`if (evictKey)`), which is false for the empty-string key. -/
theorem c1_counterexample :
    ((((mkCache { maxSize := some 1, maxMemory := some 1000000, defaultTTL := some 1000 }).set
        0 "" (JSValue.vNum 1) {}).set 1 "x" (JSValue.vNum 2) {}).cache.length = 2) ∧
    (mkCache { maxSize := some 1, maxMemory := some 1000000, defaultTTL := some 1000 }).config.maxSize = 1 := by
  constructor
  · decide
  · decide

/-- C1 (amended): for every configuration and every finite sequence of `set`
calls whose keys are all non-empty strings, after each `set` call the number
of entries in the cache satisfies `cache.size ≤ maxEntries`. (The restriction
to non-empty keys is forced by the truthiness bug exhibited by the
counterexample.) -/
theorem c1_capacity_invariant (opts : CacheOptions) (calls : List SetCall)
    (hkeys : ∀ a ∈ calls, a.key ≠ "") (n : Nat) :
    (applySets (mkCache opts) (calls.take n)).cache.length
      ≤ (mkCache opts).config.maxSize := by
  have h := applySets_capacity (calls.take n) (mkCache opts) (Wf_mkCache opts)
    (mkCache_maxSize_pos opts) (fun x hx => absurd hx (List.not_mem_nil x))
    (fun a ha => hkeys a (List.take_subset n calls ha))
    (by show 0 ≤ _; omega)
  exact h.2.2.2

/-- C1 witness: the amended capacity invariant applied to a concrete
three-call history on a two-entry cache. -/
theorem c1_capacity_invariant_witness :
    (applySets (mkCache { maxSize := some 2, maxMemory := none, defaultTTL := none })
      ([⟨0, "a", JSValue.vNum 1, {}⟩, ⟨1, "b", JSValue.vNum 2, {}⟩,
        ⟨2, "c", JSValue.vNum 3, {}⟩].take 3)).cache.length
      ≤ (mkCache { maxSize := some 2, maxMemory := none, defaultTTL := none }).config.maxSize := by
  apply c1_capacity_invariant
  intro a ha
  simp only [List.mem_cons, List.not_mem_nil, or_false] at ha
  rcases ha with rfl | rfl | rfl
  · decide
  · decide
  · decide

/-- C2: for every configuration and every finite sequence of `set` calls in
which each stored value's estimated size is individually smaller than
`maxMemoryBytes`, after each `set` call `memoryUsageBytes ≤ maxMemoryBytes`. -/
theorem c2_memory_invariant (opts : CacheOptions) (calls : List SetCall)
    (hsz : ∀ a ∈ calls,
      (getObjectSize a.value : Int) < ((mkCache opts).config.maxMemory : Int)) (n : Nat) :
    (applySets (mkCache opts) (calls.take n)).memoryUsage
      ≤ ((mkCache opts).config.maxMemory : Int) := by
  have h := applySets_memory (calls.take n) (mkCache opts) (Wf_mkCache opts)
    (fun a ha => hsz a (List.take_subset n calls ha))
    (by show (0:Int) ≤ _; positivity)
  exact h.2.2

/-- C2 witness: the memory invariant applied to a concrete two-call history. -/
theorem c2_memory_invariant_witness :
    (applySets (mkCache { maxSize := none, maxMemory := some 100, defaultTTL := none })
      ([⟨0, "a", JSValue.vNum 1, {}⟩, ⟨1, "b", JSValue.vStr "hi", {}⟩].take 2)).memoryUsage
      ≤ ((mkCache { maxSize := none, maxMemory := some 100, defaultTTL := none }).config.maxMemory : Int) := by
  apply c2_memory_invariant
  intro a ha
  simp only [List.mem_cons, List.not_mem_nil, or_false] at ha
  rcases ha with rfl | rfl
  · decide
  · decide

/-- C4: after `set(k, v, {ttlMillis: T})` at time `t0` with `T > 0`, a `get(k)`
strictly after `t0 + T` returns the miss sentinel (`null`) and deletes the
entry as a side effect, while a `get(k)` strictly before `t0 + T` returns `v`. -/
theorem c4_ttl_get (c : Cache) (hwf : Wf c) (t0 t1 T : Int) (hT : 0 < T)
    (k : String) (v : JSValue) :
    (t0 + T < t1 →
      ((c.set t0 k v { ttl := some T }).get t1 k).2 = JSValue.vNull ∧
      mhas (((c.set t0 k v { ttl := some T }).get t1 k).1).cache k = false) ∧
    (t1 < t0 + T →
      ((c.set t0 k v { ttl := some T }).get t1 k).2 = v) := by
  have hwf' := Wf_set hwf t0 k v { ttl := some T }
  obtain ⟨hv, hm0⟩ := set_lookup hwf t0 k v { ttl := some T }
  have httl : orDefaultInt (some T) c.config.defaultTTL = T :=
    orDefaultInt_some_of_ne (by omega)
  rw [httl] at hm0
  obtain ⟨m, hm, hme⟩ :
      ∃ m, mget (c.set t0 k v { ttl := some T }).metadata k = some m ∧
        m.expiry = t0 + T := ⟨_, hm0, rfl⟩
  have hk : mhas (c.set t0 k v { ttl := some T }).cache k = true := by
    rw [mhas, hv]
    rfl
  constructor
  · intro hlt
    rw [get_miss_expired hm hk (by rw [hme]; exact hlt)]
    refine ⟨rfl, ?_⟩
    show mhas (((c.set t0 k v { ttl := some T }).del k).1).cache k = false
    rw [mhas, mget_del_cache_self hwf' k]
    rfl
  · intro hlt
    rw [get_hit hm hv (by rw [hme]; omega)]

/-- C4 witness: on a fresh cache, `set` with TTL 3 at time 0 misses at time 5
and hits with the stored value at time 2. -/
theorem c4_ttl_get_witness :
    (((mkCache {}).set 0 "k" (JSValue.vNum 7) { ttl := some 3 }).get 5 "k").2
        = JSValue.vNull ∧
    (((mkCache {}).set 0 "k" (JSValue.vNum 7) { ttl := some 3 }).get 2 "k").2
        = JSValue.vNum 7 :=
  ⟨((c4_ttl_get (mkCache {}) (by decide) 0 5 3 (by decide) "k" (JSValue.vNum 7)).1
      (by decide)).1,
   (c4_ttl_get (mkCache {}) (by decide) 0 2 3 (by decide) "k" (JSValue.vNum 7)).2
      (by decide)⟩

/-- C7 (counterexample to the claim as stated): `set(k, v, {ttlMillis: 0})`
does not expire immediately: the code's `options.ttl || this.defaultTTL`
treats the explicit 0 as absent, so the entry gets the default TTL and a
strictly later `get` returns the stored value, not the miss sentinel. -/
theorem c7_counterexample :
    (((mkCache { defaultTTL := some 1000 }).set 0 "k" (JSValue.vNum 7)
        { ttl := some 0 }).get 1 "k").2 = JSValue.vNum 7 ∧
    ((mget ((mkCache { defaultTTL := some 1000 }).set 0 "k" (JSValue.vNum 7)
        { ttl := some 0 }).metadata "k").getD default).expiry = 1000 := by
  constructor
  · rfl
  · decide

/-- C7 (amended): `set(k, v, {ttlMillis: 0})` stores the entry with
`expiresAt = now + defaultTtlMillis` (the `||` default resolution discards
the falsy 0), so a later `get(k)` hits with `v` up to `t0 + defaultTtlMillis`
and misses only strictly after that. -/
theorem c7_zero_ttl_uses_default (c : Cache) (hwf : Wf c) (t0 t1 : Int)
    (k : String) (v : JSValue) :
    (∃ m, mget (c.set t0 k v { ttl := some 0 }).metadata k = some m ∧
      m.expiry = t0 + c.config.defaultTTL) ∧
    (t1 ≤ t0 + c.config.defaultTTL →
      ((c.set t0 k v { ttl := some 0 }).get t1 k).2 = v) ∧
    (t0 + c.config.defaultTTL < t1 →
      ((c.set t0 k v { ttl := some 0 }).get t1 k).2 = JSValue.vNull) := by
  obtain ⟨hv, hm0⟩ := set_lookup hwf t0 k v { ttl := some 0 }
  have httl : orDefaultInt (some 0) c.config.defaultTTL = c.config.defaultTTL := by
    simp [orDefaultInt]
  rw [httl] at hm0
  obtain ⟨m, hm, hme⟩ :
      ∃ m, mget (c.set t0 k v { ttl := some 0 }).metadata k = some m ∧
        m.expiry = t0 + c.config.defaultTTL := ⟨_, hm0, rfl⟩
  have hk : mhas (c.set t0 k v { ttl := some 0 }).cache k = true := by
    rw [mhas, hv]
    rfl
  refine ⟨⟨m, hm, hme⟩, ?_, ?_⟩
  · intro hle
    rw [get_hit hm hv (by rw [hme]; omega)]
  · intro hlt
    rw [get_miss_expired hm hk (by rw [hme]; exact hlt)]

/-- C7 witness: the amended statement applied to a concrete cache with
default TTL 1000. -/
theorem c7_zero_ttl_uses_default_witness :
    (((mkCache { defaultTTL := some 1000 }).set 0 "k" (JSValue.vNum 7)
        { ttl := some 0 }).get 1 "k").2 = JSValue.vNum 7 :=
  (c7_zero_ttl_uses_default (mkCache { defaultTTL := some 1000 }) (by decide) 0 1
    "k" (JSValue.vNum 7)).2.1 (by decide)

/-- C5 (counterexample to the claim as stated): at capacity, a `set` on an
already-present key still triggers capacity eviction (the code checks only
`size >= maxSize`, not key newness), so the entry "a" is evicted even though
only "k" was being replaced, and the key set shrinks. -/
theorem c5_counterexample :
    ((((mkCache { maxSize := some 2, maxMemory := some 1000000, defaultTTL := some 1000 }).set
        0 "a" (JSValue.vNum 1) {}).set 0 "k" (JSValue.vNum 2) {}).cache.length = 2) ∧
    (mkCache { maxSize := some 2, maxMemory := some 1000000, defaultTTL := some 1000 }).config.maxSize = 2 ∧
    mhas ((((mkCache { maxSize := some 2, maxMemory := some 1000000, defaultTTL := some 1000 }).set
        0 "a" (JSValue.vNum 1) {}).set 0 "k" (JSValue.vNum 2) {}).cache) "k" = true ∧
    keys ((((mkCache { maxSize := some 2, maxMemory := some 1000000, defaultTTL := some 1000 }).set
        0 "a" (JSValue.vNum 1) {}).set 0 "k" (JSValue.vNum 2) {}).set 1 "k"
        (JSValue.vNum 3) {}) = ["k"] := by
  refine ⟨by decide, by decide, by decide, by decide⟩

/-- C5 (amended): at capacity the capacity-eviction branch fires even when
the key being set already exists; with no memory pressure, `set(k, v')`
evicts the scan's chosen entry `e` (when `e` is a non-empty key) in addition
to replacing `k`, so the key set afterwards is `((keys \ {e}) \ {k}) ++ [k]`,
not the unchanged key set the original claim asserted. -/
theorem c5_replace_at_capacity (c : Cache) (hwf : Wf c) (now : Int) (k : String)
    (v : JSValue) (options : SetOptions) (e : String)
    (hk : mhas c.cache k = true)
    (hcap : c.cache.length = c.config.maxSize)
    (he : c.lruChoice now = some e) (hene : e ≠ "")
    (hmem : c.memoryUsage + (getObjectSize v : Int) ≤ (c.config.maxMemory : Int)) :
    keys (c.set now k v options) = ((keys c).erase e).erase k ++ [k] := by
  have hone : ¬ c.accessOrder = [] := by
    intro h0
    have hp := hwf.2.2.1
    rw [h0] at hp
    have h2 : (keys c).length = 0 := by simpa using hp.length_eq.symm
    have h3 : keys c = [] := List.eq_nil_of_length_eq_zero h2
    have hkmem : k ∈ keys c := (mhas_eq_true_iff _ _).1 hk
    rw [h3] at hkmem
    exact absurd hkmem (List.not_mem_nil k)
  have h1 : memPressure c now (getObjectSize v) = c := by
    unfold memPressure
    rw [if_neg (not_lt.2 hmem)]
  have h2 : capPressure c now = c.evictLRU now := by
    unfold capPressure
    rw [if_pos (le_of_eq hcap.symm)]
  have h3 : c.evictLRU now
      = { (c.del e).1 with stats :=
          { (c.del e).1.stats with evictions := (c.del e).1.stats.evictions + 1 } } :=
    evictLRU_of_choice he hene hone
  have hkeys2 : keys (c.evictLRU now) = (keys c).erase e := by
    rw [h3]
    exact keys_del c e
  have hse : setEvictions c now (getObjectSize v) k
      = replaceOld (c.evictLRU now) k := by
    rw [show setEvictions c now (getObjectSize v) k
        = replaceOld (capPressure (memPressure c now (getObjectSize v)) now) k from rfl]
    rw [h1, h2]
  have hkeys3 : keys (setEvictions c now (getObjectSize v) k)
      = ((keys c).erase e).erase k := by
    rw [hse]
    by_cases hke : k = e
    · subst hke
      have hnone : mget (c.evictLRU now).cache k = none := by
        rw [h3]
        exact mget_del_cache_self hwf k
      have hskip : replaceOld (c.evictLRU now) k = c.evictLRU now := by
        unfold replaceOld
        rw [if_neg (by rw [mhas, hnone]; exact fun hh => Bool.noConfusion hh)]
      rw [hskip, hkeys2]
      have hnm : k ∉ (keys c).erase k := fun hx => ((hwf.1.mem_erase_iff).1 hx).1 rfl
      rw [List.erase_of_not_mem hnm]
    · obtain ⟨v0, hv0⟩ := exists_mget_of_mem ((mhas_eq_true_iff _ _).1 hk)
      have hsome : mget (c.evictLRU now).cache k = some v0 := by
        rw [h3]
        show mget ((c.del e).1).cache k = some v0
        rw [mget_del_cache_ne c hke]
        exact hv0
      have hdel : replaceOld (c.evictLRU now) k = ((c.evictLRU now).del k).1 := by
        unfold replaceOld
        rw [if_pos (by rw [mhas, hsome]; rfl)]
      rw [hdel, keys_del, hkeys2]
  rw [keys_set hwf now k v options, hkeys3]

/-- C5 witness: the amended statement applied to the concrete two-entry cache
of the counterexample, where the chosen eviction victim is "a". -/
theorem c5_replace_at_capacity_witness :
    keys ((((mkCache { maxSize := some 2, maxMemory := some 1000000, defaultTTL := some 1000 }).set
        0 "a" (JSValue.vNum 1) {}).set 0 "k" (JSValue.vNum 2) {}).set 1 "k"
        (JSValue.vNum 3) {}) = ["k"] := by
  have h := c5_replace_at_capacity
    (((mkCache { maxSize := some 2, maxMemory := some 1000000, defaultTTL := some 1000 }).set
        0 "a" (JSValue.vNum 1) {}).set 0 "k" (JSValue.vNum 2) {})
    (by decide) 1 "k" (JSValue.vNum 3) {} "a" (by decide) (by decide) (by decide)
    (by decide) (by decide)
  exact h.trans (by decide)

/-- C6 (counterexample to the claim as stated): a cache at capacity whose
least-recently-touched entry is the empty-string key with hit count 0 and
priority 0 (and no lower score in the scan window) does not evict it on the
next insert: `if (evictKey)` is false for the empty string, so the entry
survives and the cache grows past capacity. -/
theorem c6_counterexample :
    (((mkCache { maxSize := some 1, maxMemory := some 1000000, defaultTTL := some 1000 }).set
        0 "" (JSValue.vNum 1) {}).accessOrder.head? = some "") ∧
    (((mkCache { maxSize := some 1, maxMemory := some 1000000, defaultTTL := some 1000 }).set
        0 "" (JSValue.vNum 1) {}).cache.length
      = ((mkCache { maxSize := some 1, maxMemory := some 1000000, defaultTTL := some 1000 }).set
        0 "" (JSValue.vNum 1) {}).config.maxSize) ∧
    (((mget ((mkCache { maxSize := some 1, maxMemory := some 1000000, defaultTTL := some 1000 }).set
        0 "" (JSValue.vNum 1) {}).metadata "").getD default).hits = 0) ∧
    (((mget ((mkCache { maxSize := some 1, maxMemory := some 1000000, defaultTTL := some 1000 }).set
        0 "" (JSValue.vNum 1) {}).metadata "").getD default).priority = 0) ∧
    keys (((mkCache { maxSize := some 1, maxMemory := some 1000000, defaultTTL := some 1000 }).set
        0 "" (JSValue.vNum 1) {}).set 1 "b" (JSValue.vNum 2) {}) = ["", "b"] := by
  refine ⟨by decide, by decide, by decide, by decide, by decide⟩

/-- C6 (amended): for a cache at capacity whose least-recently-touched entry
`A` has hit count 0 (so eviction score 0), whose scan window has no strictly
lower score, with `A` a non-empty key and the insert not under memory
pressure, inserting one more distinct key evicts exactly `A`. -/
theorem c6_evicts_lru_zero_score (c : Cache) (hwf : Wf c) (now : Int)
    (A : String) (rest : List String) (hao : c.accessOrder = A :: rest) (hAne : A ≠ "")
    (mA : Meta) (hmA : mget c.metadata A = some mA) (hhits : mA.hits = 0)
    (hprio : mA.priority = 0)
    (hcap : c.cache.length = c.config.maxSize)
    (hscores : ∀ x ∈ c.accessOrder.take 10,
      0 ≤ lruScore ((mget c.metadata x).getD default) now)
    (knew : String) (hknew : mget c.cache knew = none) (v : JSValue)
    (options : SetOptions)
    (hmem : c.memoryUsage + (getObjectSize v : Int) ≤ (c.config.maxMemory : Int)) :
    keys (c.set now knew v options) = (keys c).erase A ++ [knew] := by
  have hone : ¬ c.accessOrder = [] := by
    rw [hao]
    exact fun hh => List.noConfusion hh
  have hA0 : lruScore ((mget c.metadata A).getD default) now = 0 := by
    rw [hmA]
    show lruScore mA now = 0
    rw [lruScore, hhits]
    simp
  have hchoice : c.lruChoice now = some A := lruChoice_head hao hA0 hscores
  have hAkeys : A ∈ keys c := by
    rw [← hwf.2.1]
    exact List.mem_map_of_mem Prod.fst (mem_of_mget_eq_some hmA)
  have hknA : knew ≠ A := by
    intro hh
    rw [hh] at hknew
    exact (mget_eq_none_iff _ _).1 hknew hAkeys
  have h1 : memPressure c now (getObjectSize v) = c := by
    unfold memPressure
    rw [if_neg (not_lt.2 hmem)]
  have h2 : capPressure c now = c.evictLRU now := by
    unfold capPressure
    rw [if_pos (le_of_eq hcap.symm)]
  have h3 : c.evictLRU now
      = { (c.del A).1 with stats :=
          { (c.del A).1.stats with evictions := (c.del A).1.stats.evictions + 1 } } :=
    evictLRU_of_choice hchoice hAne hone
  have hnone : mget (c.evictLRU now).cache knew = none := by
    rw [h3]
    show mget ((c.del A).1).cache knew = none
    rw [mget_del_cache_ne c hknA]
    exact hknew
  have hse : setEvictions c now (getObjectSize v) knew = c.evictLRU now := by
    rw [show setEvictions c now (getObjectSize v) knew
        = replaceOld (capPressure (memPressure c now (getObjectSize v)) now) knew from rfl]
    rw [h1, h2]
    unfold replaceOld
    rw [if_neg (by rw [mhas, hnone]; exact fun hh => Bool.noConfusion hh)]
  have hkeys2 : keys (c.evictLRU now) = (keys c).erase A := by
    rw [h3]
    exact keys_del c A
  rw [keys_set hwf now knew v options, hse, hkeys2]

/-- C6 witness: the amended statement applied to a concrete one-entry cache
at capacity, whose single entry "a" is evicted when "b" is inserted. -/
theorem c6_evicts_lru_zero_score_witness :
    keys (((mkCache { maxSize := some 1, maxMemory := some 1000000, defaultTTL := some 1000 }).set
        0 "a" (JSValue.vNum 1) {}).set 1 "b" (JSValue.vNum 2) {}) = ["b"] := by
  have h := c6_evicts_lru_zero_score
    ((mkCache { maxSize := some 1, maxMemory := some 1000000, defaultTTL := some 1000 }).set
        0 "a" (JSValue.vNum 1) {})
    (by decide) 1 "a" [] (by decide) (by decide)
    { size := 8, timestamp := 0, expiry := 1000, hits := 0, priority := 0,
      tags := [], lastAccess := 0 }
    (by decide) (by decide) (by decide) (by decide)
    (by intro x hx
        rw [show (((mkCache { maxSize := some 1, maxMemory := some 1000000, defaultTTL := some 1000 }).set
              0 "a" (JSValue.vNum 1) {}).accessOrder.take 10) = ["a"] from by decide] at hx
        simp only [List.mem_cons, List.not_mem_nil, or_false] at hx
        subst hx
        decide)
    "b" (by rfl) (JSValue.vNum 2) {} (by decide)
  exact h.trans (by decide)

/-- C8: `invalidateByTag(t)` deletes exactly the stored entries whose tags
include `t` and no others, returns the number of entries so removed, and
`cache.size` decreases by exactly that count. -/
theorem c8_invalidate_by_tag (c : Cache) (hwf : Wf c) (tag : String) :
    (c.invalidateByTag tag).1.metadata
        = c.metadata.filter (fun p => !(p.2.tags.contains tag)) ∧
    (c.invalidateByTag tag).2
        = (c.metadata.filter (fun p => p.2.tags.contains tag)).length ∧
    (c.invalidateByTag tag).1.cache.length + (c.invalidateByTag tag).2 = c.cache.length ∧
    (∀ p ∈ c.metadata, p.2.tags.contains tag = true →
        mget (c.invalidateByTag tag).1.cache p.1 = none) ∧
    (∀ k, (∀ m, mget c.metadata k = some m → m.tags.contains tag = false) →
        mget (c.invalidateByTag tag).1.cache k = mget c.cache k) := by
  have hmnd : (c.metadata.map Prod.fst).Nodup := by rw [hwf.2.1]; exact hwf.1
  obtain ⟨w, cf, hcache, hmeta⟩ :=
    delFold_spec ((c.metadata.filter (fun p => p.2.tags.contains tag)).map Prod.fst) c hwf
  have hr1 : (c.invalidateByTag tag).1
      = ((c.metadata.filter (fun p => p.2.tags.contains tag)).map Prod.fst).foldl
          (fun acc k => (acc.del k).1) c := rfl
  have hr2 : (c.invalidateByTag tag).2
      = ((c.metadata.filter (fun p => p.2.tags.contains tag)).map Prod.fst).length := rfl
  have hpt : ∀ p ∈ c.metadata,
      ((c.metadata.filter (fun q => q.2.tags.contains tag)).map Prod.fst).contains p.1
        = p.2.tags.contains tag := by
    intro p hp
    rcases bool_cases (p.2.tags.contains tag) with ht | ht
    · rw [ht]
      apply contains_false_of_not_mem
      intro hx
      obtain ⟨q, hq, hqe⟩ := List.mem_map.1 hx
      have hq' := List.mem_of_mem_filter hq
      have hqt := List.of_mem_filter hq
      have hqp : q = p := eq_of_mem_nodup_fst hmnd hq' hp hqe
      rw [hqp, ht] at hqt
      exact Bool.noConfusion hqt
    · rw [ht]
      exact (contains_iff _ _).2
        (List.mem_map_of_mem Prod.fst (List.mem_filter.2 ⟨hp, ht⟩))
  have hmeta' : (c.invalidateByTag tag).1.metadata
      = c.metadata.filter (fun p => !(p.2.tags.contains tag)) := by
    rw [hr1, hmeta]
    apply List.filter_congr
    intro p hp
    rw [hpt p hp]
  refine ⟨hmeta', ?_, ?_, ?_, ?_⟩
  · rw [hr2, List.length_map]
  · have hlen_cm : c.cache.length = c.metadata.length := by
      have h3 : c.metadata.map Prod.fst = keys c := hwf.2.1
      have h4 := congrArg List.length h3
      simp only [keys, List.length_map] at h4
      omega
    have hlen_r : (c.invalidateByTag tag).1.cache.length
        = (c.invalidateByTag tag).1.metadata.length := by
      have hw : Wf (c.invalidateByTag tag).1 := hr1 ▸ w
      have h3 : (c.invalidateByTag tag).1.metadata.map Prod.fst
          = keys (c.invalidateByTag tag).1 := hw.2.1
      have h4 := congrArg List.length h3
      simp only [keys, List.length_map] at h4
      omega
    have hsplit := length_filter_split (fun p => p.2.tags.contains tag) c.metadata
    rw [hlen_r, hmeta', hr2, List.length_map, hlen_cm]
    omega
  · intro p hp ht
    rw [hr1, hcache]
    apply mget_filter_eq_none
    intro q hq hqe
    have hpks : p.1 ∈ (c.metadata.filter (fun q => q.2.tags.contains tag)).map Prod.fst :=
      List.mem_map_of_mem Prod.fst (List.mem_filter.2 ⟨hp, ht⟩)
    have hcq : ((c.metadata.filter (fun q => q.2.tags.contains tag)).map Prod.fst).contains q.1
        = true := by
      rw [hqe]
      exact (contains_iff _ _).2 hpks
    rw [hcq]
    rfl
  · intro k hcond
    rw [hr1, hcache]
    apply mget_filter_eq_of_true
    intro q hq hqe
    have hknotin : k ∉ (c.metadata.filter (fun q => q.2.tags.contains tag)).map Prod.fst := by
      intro hx
      obtain ⟨q', hq', hqe'⟩ := List.mem_map.1 hx
      have hq'' := List.mem_of_mem_filter hq'
      have hqt' := List.of_mem_filter hq'
      have hmg : mget c.metadata k = some q'.2 := by
        rw [← hqe']
        exact mget_of_mem_nodup hmnd hq''
      rw [hcond q'.2 hmg] at hqt'
      exact Bool.noConfusion hqt'
    have hcq : ((c.metadata.filter (fun q => q.2.tags.contains tag)).map Prod.fst).contains q.1
        = false := by
      rw [hqe]
      exact contains_false_of_not_mem hknotin
    rw [hcq]
    rfl

/-- C8 witness: on a cache with one "t"-tagged entry and one untagged entry,
`invalidateByTag` removes one entry, the tagged key is gone, the untagged
key's value is untouched. -/
theorem c8_invalidate_by_tag_witness :
    ((((mkCache { defaultTTL := some 1000 }).set 0 "a" (JSValue.vNum 1)
        { tags := some ["t"] }).set 0 "b" (JSValue.vNum 2) {}).invalidateByTag "t").2 = 1 ∧
    mget ((((mkCache { defaultTTL := some 1000 }).set 0 "a" (JSValue.vNum 1)
        { tags := some ["t"] }).set 0 "b" (JSValue.vNum 2) {}).invalidateByTag "t").1.cache "a"
      = none := by
  have h := c8_invalidate_by_tag
    (((mkCache { defaultTTL := some 1000 }).set 0 "a" (JSValue.vNum 1)
        { tags := some ["t"] }).set 0 "b" (JSValue.vNum 2) {})
    (by decide) "t"
  refine ⟨h.2.1.trans (by decide), ?_⟩
  refine h.2.2.2.1 ("a", { size := 8, timestamp := 0, expiry := 1000, hits := 0, priority := 0, tags := ["t"], lastAccess := 0 }) (by decide) (by decide)

/-- C9: bookkeeping is preserved by every operation: starting from any
well-formed state, after `set`, `get`, `delete`, `clear`, `cleanup`,
`evictLRU`, `evictByMemory`, `invalidateByTag` and `import`, the state is
again well formed — in particular `memoryUsageBytes` equals the sum of the
recorded `sizeBytes` of the stored entries, and the stored keys and the
access-order sequence hold exactly the same keys, each exactly once. -/
theorem c9_bookkeeping_invariants (c : Cache) (hwf : Wf c) (now : Int) (k : String)
    (v : JSValue) (options : SetOptions) (tag : String) (data : ExportData) (n : Nat) :
    Wf (c.set now k v options) ∧ Wf (c.get now k).1 ∧ Wf (c.del k).1 ∧ Wf c.clear ∧
    Wf (c.cleanup now) ∧ Wf (c.evictLRU now) ∧ Wf (c.evictByMemory now n) ∧
    Wf (c.invalidateByTag tag).1 ∧ Wf (c.importData now data) :=
  ⟨Wf_set hwf now k v options, Wf_get hwf now k, Wf_del hwf k, Wf_clear c,
   Wf_cleanup hwf now, Wf_evictLRU hwf now, (evictByMemory_spec hwf now n).1,
   Wf_invalidateByTag hwf tag, Wf_importData c now data⟩

/-- C9 witness: the invariants hold after each operation on a concrete
well-formed two-entry cache. -/
theorem c9_bookkeeping_invariants_witness :
    Wf ((((mkCache {}).set 0 "a" (JSValue.vNum 1) {}).set 1 "b" (JSValue.vNum 2) {}).set
        2 "c" (JSValue.vNum 3) { tags := some ["t"] }) ∧
    Wf (((((mkCache {}).set 0 "a" (JSValue.vNum 1) {}).set 1 "b" (JSValue.vNum 2) {}).get
        3 "a").1) :=
  ⟨(c9_bookkeeping_invariants
      (((mkCache {}).set 0 "a" (JSValue.vNum 1) {}).set 1 "b" (JSValue.vNum 2) {})
      (by decide) 2 "c" (JSValue.vNum 3) { tags := some ["t"] } "t"
      ⟨[], { hits := 0, misses := 0, evictions := 0, sets := 0, deletes := 0, memoryPeak := 0 }, 0⟩ 0).1,
   (c9_bookkeeping_invariants
      (((mkCache {}).set 0 "a" (JSValue.vNum 1) {}).set 1 "b" (JSValue.vNum 2) {})
      (by decide) 3 "a" (JSValue.vNum 3) { tags := some ["t"] } "t"
      ⟨[], { hits := 0, misses := 0, evictions := 0, sets := 0, deletes := 0, memoryPeak := 0 }, 0⟩ 0).2.1⟩

/-- C10 (counterexample to the claim as stated): a live tagged entry whose
stored value is `null` is counted as a hit by `getByTag` (the hits counter
increases) but `value !== null` excludes it from the returned pairs, so the
hits counter is not incremented "once per returned pair". -/
theorem c10_counterexample :
    ((((mkCache { defaultTTL := some 1000 }).set 0 "a" JSValue.vNull
        { tags := some ["t"] }).getByTag 1 "t").2 = []) ∧
    ((((mkCache { defaultTTL := some 1000 }).set 0 "a" JSValue.vNull
        { tags := some ["t"] }).getByTag 1 "t").1.stats.hits
      = ((mkCache { defaultTTL := some 1000 }).set 0 "a" JSValue.vNull
        { tags := some ["t"] }).stats.hits + 1) := by
  constructor
  · rfl
  · decide

/-- C10 (amended): `getByTag(t)` invokes `get` on each stored entry whose
tags include `t` (in metadata order): every expired such entry is deleted
(with the misses and deletes counters each incremented once per expired
entry) and excluded from the result; every live such entry has its hit count
incremented, its last-access time refreshed and its key moved to the
most-recently-used end of the access order, and the cache hits counter is
incremented once per live tagged entry; the returned pairs are exactly the
live tagged entries whose stored value is not `null`; all other entries are
untouched. -/
theorem c10_get_by_tag_effects (c : Cache) (hwf : Wf c) (now : Int) (tag : String) :
    (c.getByTag now tag).2
        = ((liveOf tag now c.metadata).filter
            (fun p => !(valueAt c p.1).isNull)).map (fun p => (p.1, valueAt c p.1)) ∧
    (∀ p ∈ expiredOf tag now c.metadata,
      mget (c.getByTag now tag).1.cache p.1 = none ∧
      mget (c.getByTag now tag).1.metadata p.1 = none) ∧
    (∀ p ∈ liveOf tag now c.metadata,
      mget (c.getByTag now tag).1.metadata p.1
        = some { p.2 with hits := p.2.hits + 1, lastAccess := now } ∧
      mget (c.getByTag now tag).1.cache p.1 = mget c.cache p.1) ∧
    (∀ k, k ∉ (taggedOf tag c.metadata).map Prod.fst →
      mget (c.getByTag now tag).1.cache k = mget c.cache k ∧
      mget (c.getByTag now tag).1.metadata k = mget c.metadata k) ∧
    (c.getByTag now tag).1.stats.hits
        = c.stats.hits + (liveOf tag now c.metadata).length ∧
    (c.getByTag now tag).1.stats.misses
        = c.stats.misses + (expiredOf tag now c.metadata).length ∧
    (c.getByTag now tag).1.stats.deletes
        = c.stats.deletes + (expiredOf tag now c.metadata).length ∧
    (c.getByTag now tag).1.accessOrder
        = c.accessOrder.filter
            (fun x => !(((taggedOf tag c.metadata).map Prod.fst).contains x))
          ++ (liveOf tag now c.metadata).map Prod.fst := by
  have hmnd : (c.metadata.map Prod.fst).Nodup := by rw [hwf.2.1]; exact hwf.1
  have h := getByTagGo_spec now tag c.metadata c [] hwf hmnd
    (fun p hp => mget_of_mem_nodup hmnd hp)
  rw [show c.getByTag now tag = getByTagGo now tag c.metadata (c, []) from rfl]
  obtain ⟨g1, g2, g3, g4, g5, g6, g7, g8, _⟩ := h
  exact ⟨g1.trans (List.nil_append _), g2, g3, g4, g5, g6, g7, g8⟩

/-- C10 witness: the amended statement applied to a concrete cache with one
live tagged entry holding a non-null value. -/
theorem c10_get_by_tag_effects_witness :
    (((mkCache { defaultTTL := some 1000 }).set 0 "a" (JSValue.vNum 5)
        { tags := some ["t"] }).getByTag 1 "t").2 = [("a", JSValue.vNum 5)] := by
  have h := c10_get_by_tag_effects
    ((mkCache { defaultTTL := some 1000 }).set 0 "a" (JSValue.vNum 5) { tags := some ["t"] })
    (by decide) 1 "t"
  exact h.1.trans (by rfl)

/-- C3 (counterexample to the claim as stated): an entry with remaining
TTL 100 at export time is dropped by an import only `Δ = 60 < 100` later,
because the import both shifts `expiresAt` back by the elapsed time and
re-anchors the TTL at the import clock, so the survival condition is
`remaining > 2·Δ`, not `remaining > Δ`. -/
theorem c3_counterexample :
    ((0:Int) ≤ 60 ∧ (60:Int) < 100) ∧
    (mget ((mkCache { maxSize := some 10, maxMemory := some 1000000, defaultTTL := some 1000 }).set
        0 "a" (JSValue.vNum 1) { ttl := some 100 }).metadata "a"
      = some { size := 8, timestamp := 0, expiry := 100, hits := 0, priority := 0, tags := [], lastAccess := 0 }) ∧
    mget ((mkCache { maxSize := some 10, maxMemory := some 1000000, defaultTTL := some 1000 }).importData 60
        (((mkCache { maxSize := some 10, maxMemory := some 1000000, defaultTTL := some 1000 }).set
          0 "a" (JSValue.vNum 1) { ttl := some 100 }).export 0)).cache "a" = none := by
  refine ⟨⟨by decide, by decide⟩, by decide, by rfl⟩

/-- C3 (amended): exporting at `t0`, waiting `d ≥ 0` with `2·d` strictly
below every entry's remaining TTL, then importing into a fresh cache with
the same configuration reproduces exactly the same entries: the value map is
unchanged, each entry's absolute `expiresAt` is reduced by exactly `d` (so
its remaining TTL at import time is reduced by `2·d`, not `d` as originally
claimed), and each entry's original hit count is restored. -/
theorem c3_export_import_roundtrip (c c₂ : Cache) (hwf : Wf c)
    (hcfg : c₂.config = c.config)
    (hmu : c.memoryUsage ≤ (c.config.maxMemory : Int))
    (hlen : c.cache.length ≤ c.config.maxSize)
    (hsz : ∀ p ∈ c.cache, ∃ m, mget c.metadata p.1 = some m ∧ m.size = getObjectSize p.2)
    (t0 d : Int) (hd : 0 ≤ d)
    (hmin : ∀ q ∈ c.metadata, t0 + 2 * d < q.2.expiry) :
    (c₂.importData (t0 + d) (c.export t0)).cache = c.cache ∧
    (∀ q ∈ c.metadata, ∃ m',
      mget (c₂.importData (t0 + d) (c.export t0)).metadata q.1 = some m' ∧
      m'.expiry = q.2.expiry - d ∧ m'.hits = q.2.hits ∧
      m'.priority = q.2.priority ∧ m'.tags = q.2.tags) := by
  have hmnd : (c.metadata.map Prod.fst).Nodup := by rw [hwf.2.1]; exact hwf.1
  have hes : (c.export t0).entries = c.cache.map (fun p =>
      { key := p.1, value := p.2, metadata := (mget c.metadata p.1).getD default }) := rfl
  have heskeys : (c.export t0).entries.map ExportEntry.key = keys c := by
    rw [hes, List.map_map]
    rfl
  have hexpentry : ∀ e ∈ (c.export t0).entries,
      e.metadata.expiry - ((t0 + d) - t0) > t0 + d := by
    intro e he
    rw [hes] at he
    obtain ⟨p, hp, hpe⟩ := List.mem_map.1 he
    have hpkeys : p.1 ∈ c.metadata.map Prod.fst := by
      rw [hwf.2.1]
      exact List.mem_map_of_mem Prod.fst hp
    obtain ⟨m, hm⟩ := exists_mget_of_mem hpkeys
    have hqm : t0 + 2 * d < m.expiry := hmin (p.1, m) (mem_of_mget_eq_some hm)
    rw [← hpe]
    show ((mget c.metadata p.1).getD default).expiry - ((t0 + d) - t0) > t0 + d
    rw [hm]
    simp only [Option.getD_some]
    omega
  have hndclear : ((c₂.clear.cache.map Prod.fst)
      ++ (c.export t0).entries.map ExportEntry.key).Nodup := by
    rw [heskeys]
    show (([] : List String) ++ keys c).Nodup
    rw [List.nil_append]
    exact hwf.1
  have hlenclear : c₂.clear.cache.length + (c.export t0).entries.length
      ≤ c₂.clear.config.maxSize := by
    have h1 : (c.export t0).entries.length = c.cache.length := by
      rw [hes, List.length_map]
    show 0 + (c.export t0).entries.length ≤ c₂.config.maxSize
    rw [h1, hcfg]
    omega
  have hsum : ((c.export t0).entries.map (fun e => (getObjectSize e.value : Int))).sum
      = msum c.metadata := by
    rw [hes, List.map_map]
    exact sum_sizes_eq_msum c.cache c.metadata hwf.2.1 hwf.1 hsz
  have hmuclear : c₂.clear.memoryUsage
      + ((c.export t0).entries.map (fun e => (getObjectSize e.value : Int))).sum
      ≤ (c₂.clear.config.maxMemory : Int) := by
    show (0:Int) + _ ≤ (c₂.config.maxMemory : Int)
    rw [hsum, ← hwf.2.2.2, hcfg]
    omega
  obtain ⟨hfc, hfm⟩ := importFold_spec t0 (t0 + d) (c.export t0).entries c₂.clear
    (Wf_clear c₂) hexpentry hndclear hlenclear hmuclear
  have hresc : (c₂.importData (t0 + d) (c.export t0)).cache
      = ((c.export t0).entries.foldl (importStep t0 (t0 + d)) c₂.clear).cache := rfl
  have hresm : (c₂.importData (t0 + d) (c.export t0)).metadata
      = ((c.export t0).entries.foldl (importStep t0 (t0 + d)) c₂.clear).metadata := rfl
  constructor
  · rw [hresc, hfc]
    show ([] : AList JSValue) ++ _ = c.cache
    rw [List.nil_append, hes, List.map_map]
    show c.cache.map (fun p => (p.1, p.2)) = c.cache
    exact List.map_id _
  · intro q hq
    have hmgq : mget c.metadata q.1 = some q.2 := mget_of_mem_nodup hmnd hq
    have hqkeys : q.1 ∈ keys c := by
      rw [← hwf.2.1]
      exact List.mem_map_of_mem Prod.fst hq
    obtain ⟨v, hv⟩ := exists_mget_of_mem hqkeys
    have hpv : (q.1, v) ∈ c.cache := mem_of_mget_eq_some hv
    have hfm' : (c₂.importData (t0 + d) (c.export t0)).metadata
        = (c.export t0).entries.map (fun e =>
            ((e.key, { size := getObjectSize e.value, timestamp := t0 + d, expiry := e.metadata.expiry - ((t0 + d) - t0), hits := e.metadata.hits, priority := e.metadata.priority, tags := e.metadata.tags, lastAccess := t0 + d }) : String × Meta)) := by
      rw [hresm, hfm]
      show ([] : AList Meta) ++ _ = _
      rw [List.nil_append]
    have hndf : ((c₂.importData (t0 + d) (c.export t0)).metadata.map Prod.fst).Nodup := by
      rw [hfm', List.map_map]
      show ((c.export t0).entries.map ExportEntry.key).Nodup
      rw [heskeys]
      exact hwf.1
    have hein : ({ key := q.1, value := v, metadata := (mget c.metadata q.1).getD default }
        : ExportEntry) ∈ (c.export t0).entries := by
      rw [hes]
      exact List.mem_map_of_mem _ hpv
    have hmem2 : ((q.1, { size := getObjectSize v, timestamp := t0 + d, expiry := ((mget c.metadata q.1).getD default).expiry - ((t0 + d) - t0), hits := ((mget c.metadata q.1).getD default).hits, priority := ((mget c.metadata q.1).getD default).priority, tags := ((mget c.metadata q.1).getD default).tags, lastAccess := t0 + d }) : String × Meta)
        ∈ (c₂.importData (t0 + d) (c.export t0)).metadata := by
      rw [hfm']
      exact List.mem_map_of_mem _ hein
    have hmget2 := mget_of_mem_nodup hndf hmem2
    refine ⟨_, hmget2, ?_, ?_, ?_, ?_⟩
    · show ((mget c.metadata q.1).getD default).expiry - ((t0 + d) - t0) = q.2.expiry - d
      rw [hmgq]
      simp only [Option.getD_some]
      omega
    · show ((mget c.metadata q.1).getD default).hits = q.2.hits
      rw [hmgq]
      simp only [Option.getD_some]
    · show ((mget c.metadata q.1).getD default).priority = q.2.priority
      rw [hmgq]
      simp only [Option.getD_some]
    · show ((mget c.metadata q.1).getD default).tags = q.2.tags
      rw [hmgq]
      simp only [Option.getD_some]

/-- C3 witness: the amended round trip applied to a concrete one-entry cache
exported at time 0 and imported at time 10 (entry TTL 100 > 2·10). -/
theorem c3_export_import_roundtrip_witness :
    ((mkCache { maxSize := some 10, maxMemory := some 1000000, defaultTTL := some 1000 }).importData 10
      (((mkCache { maxSize := some 10, maxMemory := some 1000000, defaultTTL := some 1000 }).set
        0 "a" (JSValue.vNum 5) { ttl := some 100 }).export 0)).cache
    = ((mkCache { maxSize := some 10, maxMemory := some 1000000, defaultTTL := some 1000 }).set
        0 "a" (JSValue.vNum 5) { ttl := some 100 }).cache := by
  have h := c3_export_import_roundtrip
    ((mkCache { maxSize := some 10, maxMemory := some 1000000, defaultTTL := some 1000 }).set
        0 "a" (JSValue.vNum 5) { ttl := some 100 })
    (mkCache { maxSize := some 10, maxMemory := some 1000000, defaultTTL := some 1000 })
    (by decide) (by decide) (by decide) (by decide)
    (by intro p hp
        rw [show ((mkCache { maxSize := some 10, maxMemory := some 1000000, defaultTTL := some 1000 }).set
              0 "a" (JSValue.vNum 5) { ttl := some 100 }).cache = [("a", JSValue.vNum 5)] from by rfl] at hp
        simp only [List.mem_cons, List.not_mem_nil, or_false] at hp
        subst hp
        exact ⟨{ size := 8, timestamp := 0, expiry := 100, hits := 0, priority := 0, tags := [], lastAccess := 0 },
          by decide, by decide⟩)
    0 10 (by decide)
    (by intro q hq
        rw [show ((mkCache { maxSize := some 10, maxMemory := some 1000000, defaultTTL := some 1000 }).set
              0 "a" (JSValue.vNum 5) { ttl := some 100 }).metadata
            = [("a", { size := 8, timestamp := 0, expiry := 100, hits := 0, priority := 0, tags := [], lastAccess := 0 })] from by decide] at hq
        simp only [List.mem_cons, List.not_mem_nil, or_false] at hq
        subst hq
        decide)
  exact h.1

end SaveGrandma
